import Mathlib

/-!
Verification of the dnaio core (FASTQ/BAM record engine) against its
natural-language specification.

The definitions below are shallow embeddings of the functions in
`src/dnaio/_core.pyx`, `src/dnaio/ascii_check.h`, `src/dnaio/bam.h` and the
tag-aware `_core.pyx` variant (`src/unnamed/part_007`).  Byte strings are
modelled as `List Nat` (one `Nat` per byte, meaningful values `< 256`);
machine integers are modelled as `Nat`/`Int`; fallible operations return
`Option`/`Except`.  Comments on each definition point to the source lines
it embeds.
-/

set_option maxRecDepth 80000

/-- A byte value: we use plain `Nat`, with hypotheses `b < 256` where the C
code relies on bytes being in range. -/
abbrev Byte := Nat

/-! ## The SequenceRecord data model

Embeds the `SequenceRecord` extension type of `_core.pyx` (tag-aware variant
in `src/unnamed/part_007`, fields `_name`, `_sequence`, `_qualities`,
`_tags`).  The three string fields are ASCII byte strings; `qualities` is
`none` when no quality values are available; `tags` is the raw BAM
auxiliary-tag block attached by `BamIter.__next__` (or `none`). -/
structure SequenceRecord where
  name : List Byte
  sequence : List Byte
  qualities : Option (List Byte)
  tags : Option (List Byte)
  deriving Repr, DecidableEq

/-! ## FASTQ serialization: SequenceRecord.fastq_bytes

`fastq_bytes` (_core.pyx lines 260-312) allocates an uninitialized byte
buffer of the pre-computed total size and fills it with a fixed write
sequence (`retval_ptr[0] = '@'`, `memcpy` of name, newline, ...).  We model
the uninitialized buffer as a zero-filled list and each write as `writeAt`. -/

/-- Model of `memcpy(buf + pos, bytes, len(bytes))`: overwrite `buf`
starting at `pos` with `bytes` (callers guarantee the write fits). -/
def writeAt (buf : List Byte) (pos : Nat) (bytes : List Byte) : List Byte :=
  buf.take pos ++ bytes ++ buf.drop (pos + bytes.length)

/-- `SequenceRecord.fastq_bytes(two_headers)` (_core.pyx 260-312).
Returns `none` exactly when `self._qualities is None`, modelling
`raise ValueError("Cannot create a FASTQ record when qualities is not set.")`
(the `QualitiesRequired` error of the spec).  Otherwise performs the write
sequence of the source into a fresh buffer of size `total_size`. -/
def fastqBytes (r : SequenceRecord) (twoHeaders : Bool) : Option (List Byte) :=
  match r.qualities with
  | none => none
  | some qualities =>
    let nameLength := r.name.length
    let sequenceLength := r.sequence.length
    let qualitiesLength := qualities.length
    -- total size is name + sequence + qualities + 4 newlines + '+' and an '@'
    let totalSize := nameLength + sequenceLength + qualitiesLength + 6 +
      (if twoHeaders then nameLength else 0)
    let b0 : List Byte := List.replicate totalSize 0
    -- retval_ptr[0] = b"@"
    let b1 := writeAt b0 0 [64]
    -- memcpy(retval_ptr + 1, name, name_length); cursor = name_length + 1
    let b2 := writeAt b1 1 r.name
    let c1 := nameLength + 1
    -- retval_ptr[cursor] = b"\n"; cursor += 1
    let b3 := writeAt b2 c1 [10]
    -- memcpy(retval_ptr + cursor, sequence, sequence_length)
    let b4 := writeAt b3 (c1 + 1) r.sequence
    let c2 := c1 + 1 + sequenceLength
    -- retval_ptr[cursor] = b"\n"; retval_ptr[cursor+1] = b"+"
    let b5 := writeAt b4 c2 [10]
    let b6 := writeAt b5 (c2 + 1) [43]
    -- if two_headers: memcpy(retval_ptr + cursor, name, name_length)
    let b7 := if twoHeaders then writeAt b6 (c2 + 2) r.name else b6
    let c3 := c2 + 2 + (if twoHeaders then nameLength else 0)
    -- retval_ptr[cursor] = b"\n"; cursor += 1
    let b8 := writeAt b7 c3 [10]
    -- memcpy(retval_ptr + cursor, qualities, qualities_length)
    let b9 := writeAt b8 (c3 + 1) qualities
    -- retval_ptr[cursor] = b"\n"
    some (writeAt b9 (c3 + 1 + qualitiesLength) [10])

/-- The layout `'@' name '\n' sequence '\n' '+' (name?) '\n' qualities '\n'`
stated by the spec (section 6, FASTQ output layout), written as plain list
concatenation. -/
def fastqLayout (name sequence qualities : List Byte) (twoHeaders : Bool) :
    List Byte :=
  64 :: name ++ 10 :: sequence ++ 10 :: 43 ::
    (if twoHeaders then name else []) ++ 10 :: qualities ++ [10]

lemma writeAt_step (buf w : List Byte) (k : Nat) (v : List Byte) (pos m : Nat)
    (hbuf : buf = w ++ List.replicate k 0) (hpos : pos = w.length)
    (hlen : v.length ≤ k) (hm : m = k - v.length) :
    writeAt buf pos v = (w ++ v) ++ List.replicate m 0 := by
  subst hbuf hpos hm
  unfold writeAt
  rw [List.take_left, List.drop_append_eq_append_drop]
  simp

lemma fastqBytes_eq_layout (r : SequenceRecord) (q : List Byte)
    (hq : r.qualities = some q) (th : Bool) :
    fastqBytes r th = some (fastqLayout r.name r.sequence q th) := by
  obtain ⟨name, sequence, qualities, tags⟩ := r
  simp only at hq
  subst hq
  set n := name.length with hn
  set s := sequence.length with hs
  set ql := q.length with hql
  cases th with
  | false =>
    simp only [fastqBytes, if_neg (by simp : ¬ (false = true))]
    rw [writeAt_step _ [] (n + s + ql + 6 + 0) [64] 0 (n + s + ql + 5)
      (by simp; try omega) (by simp; try omega) (by simp [hn, hs, hql]; try omega) (by simp [hn, hs, hql]; try omega)]
    rw [writeAt_step _ ([] ++ [64]) (n + s + ql + 5) name 1 (s + ql + 5)
      rfl (by simp; try omega) (by simp [hn, hs, hql]; try omega) (by simp [hn, hs, hql]; try omega)]
    rw [writeAt_step _ (([] ++ [64]) ++ name) (s + ql + 5) [10] (n + 1) (s + ql + 4)
      rfl (by simp; try omega) (by simp [hn, hs, hql]; try omega) (by simp [hn, hs, hql]; try omega)]
    rw [writeAt_step _ ((([] ++ [64]) ++ name) ++ [10]) (s + ql + 4) sequence
      (n + 1 + 1) (ql + 4) rfl (by simp [hn, hs, hql]; try omega) (by simp [hn, hs, hql]; try omega) (by simp [hn, hs, hql]; try omega)]
    rw [writeAt_step _ (((([] ++ [64]) ++ name) ++ [10]) ++ sequence) (ql + 4) [10]
      (n + 1 + 1 + s) (ql + 3) rfl (by simp [hn, hs, hql]; try omega) (by simp [hn, hs, hql]; try omega) (by simp [hn, hs, hql]; try omega)]
    rw [writeAt_step _ ((((([] ++ [64]) ++ name) ++ [10]) ++ sequence) ++ [10])
      (ql + 3) [43] (n + 1 + 1 + s + 1) (ql + 2) rfl (by simp [hn, hs, hql]; try omega)
      (by simp [hn, hs, hql]; try omega) (by simp [hn, hs, hql]; try omega)]
    rw [writeAt_step _ (((((([] ++ [64]) ++ name) ++ [10]) ++ sequence) ++ [10]) ++ [43])
      (ql + 2) [10] (n + 1 + 1 + s + 1 + 1 + 0) (ql + 1) rfl
      (by simp [hn, hs, hql]; try omega) (by simp [hn, hs, hql]; try omega) (by simp [hn, hs, hql]; try omega)]
    rw [writeAt_step _ ((((((([] ++ [64]) ++ name) ++ [10]) ++ sequence) ++ [10]) ++ [43]) ++ [10])
      (ql + 1) q (n + 1 + 1 + s + 1 + 1 + 0 + 1) 1 rfl
      (by simp [hn, hs, hql]; try omega) (by simp [hn, hs, hql]; try omega) (by simp [hn, hs, hql]; try omega)]
    rw [writeAt_step _ (((((((([] ++ [64]) ++ name) ++ [10]) ++ sequence) ++ [10]) ++ [43]) ++ [10]) ++ q)
      1 [10] (n + 1 + 1 + s + 1 + 1 + 0 + 1 + ql) 0 rfl
      (by simp [hn, hs, hql]; try omega) (by simp [hn, hs, hql]; try omega) (by simp [hn, hs, hql]; try omega)]
    simp [fastqLayout]
  | true =>
    simp only [fastqBytes, eq_self_iff_true, if_true]
    rw [writeAt_step _ [] (n + s + ql + 6 + n) [64] 0 (n + s + ql + 5 + n)
      (by simp; try omega) (by simp; try omega) (by simp [hn, hs, hql]; try omega) (by simp [hn, hs, hql]; try omega)]
    rw [writeAt_step _ ([] ++ [64]) (n + s + ql + 5 + n) name 1 (s + ql + 5 + n)
      rfl (by simp; try omega) (by simp [hn, hs, hql]; try omega) (by simp [hn, hs, hql]; try omega)]
    rw [writeAt_step _ (([] ++ [64]) ++ name) (s + ql + 5 + n) [10] (n + 1) (s + ql + 4 + n)
      rfl (by simp; try omega) (by simp [hn, hs, hql]; try omega) (by simp [hn, hs, hql]; try omega)]
    rw [writeAt_step _ ((([] ++ [64]) ++ name) ++ [10]) (s + ql + 4 + n) sequence
      (n + 1 + 1) (ql + 4 + n) rfl (by simp [hn, hs, hql]; try omega) (by simp [hn, hs, hql]; try omega) (by simp [hn, hs, hql]; try omega)]
    rw [writeAt_step _ (((([] ++ [64]) ++ name) ++ [10]) ++ sequence) (ql + 4 + n) [10]
      (n + 1 + 1 + s) (ql + 3 + n) rfl (by simp [hn, hs, hql]; try omega) (by simp [hn, hs, hql]; try omega) (by simp [hn, hs, hql]; try omega)]
    rw [writeAt_step _ ((((([] ++ [64]) ++ name) ++ [10]) ++ sequence) ++ [10])
      (ql + 3 + n) [43] (n + 1 + 1 + s + 1) (ql + 2 + n) rfl (by simp [hn, hs, hql]; try omega)
      (by simp [hn, hs, hql]; try omega) (by simp [hn, hs, hql]; try omega)]
    rw [writeAt_step _ (((((([] ++ [64]) ++ name) ++ [10]) ++ sequence) ++ [10]) ++ [43])
      (ql + 2 + n) name (n + 1 + 1 + s + 1 + 1) (ql + 2) rfl
      (by simp [hn, hs, hql]; try omega) (by simp [hn, hs, hql]; try omega) (by simp [hn, hs, hql]; try omega)]
    rw [writeAt_step _ ((((((([] ++ [64]) ++ name) ++ [10]) ++ sequence) ++ [10]) ++ [43]) ++ name)
      (ql + 2) [10] (n + 1 + 1 + s + 1 + 1 + n) (ql + 1) rfl
      (by simp [hn, hs, hql]; try omega) (by simp [hn, hs, hql]; try omega) (by simp [hn, hs, hql]; try omega)]
    rw [writeAt_step _ (((((((([] ++ [64]) ++ name) ++ [10]) ++ sequence) ++ [10]) ++ [43]) ++ name) ++ [10])
      (ql + 1) q (n + 1 + 1 + s + 1 + 1 + n + 1) 1 rfl
      (by simp [hn, hs, hql]; try omega) (by simp [hn, hs, hql]; try omega) (by simp [hn, hs, hql]; try omega)]
    rw [writeAt_step _ ((((((((([] ++ [64]) ++ name) ++ [10]) ++ sequence) ++ [10]) ++ [43]) ++ name) ++ [10]) ++ q)
      1 [10] (n + 1 + 1 + s + 1 + 1 + n + 1 + ql) 0 rfl
      (by simp [hn, hs, hql]; try omega) (by simp [hn, hs, hql]; try omega) (by simp [hn, hs, hql]; try omega)]
    simp [fastqLayout]


/-- Claim C3: FASTQ serialization layout.  For every record with qualities
present, `fastq_bytes(two_headers)` returns exactly the bytes
`'@' name '\n' sequence '\n' '+' (name if two_headers) '\n' qualities '\n'`,
of total length `len(name) + len(sequence) + len(qualities) + 6` (plus
`len(name)` when `two_headers`); and it fails with the `QualitiesRequired`
error (modelled as `none`) if and only if `qualities` is absent.  The
"leaving the record unchanged" part of the claim is intrinsic to the pure
model: `fastqBytes` takes the record by value and cannot mutate it, which
matches the source, whose only effect is allocating the fresh output
buffer. -/
theorem C3_fastq_layout (r : SequenceRecord) (th : Bool) :
    (∀ q, r.qualities = some q →
      fastqBytes r th = some (fastqLayout r.name r.sequence q th) ∧
      (fastqLayout r.name r.sequence q th).length =
        r.name.length + r.sequence.length + q.length + 6 +
          (if th then r.name.length else 0)) ∧
    (fastqBytes r th = none ↔ r.qualities = none) := by
  constructor
  · intro q hq
    refine ⟨fastqBytes_eq_layout r q hq th, ?_⟩
    cases th <;> simp [fastqLayout] <;> omega
  · constructor
    · intro h
      cases hq : r.qualities with
      | none => rfl
      | some q => rw [fastqBytes_eq_layout r q hq th] at h; cases h
    · intro h
      unfold fastqBytes
      rw [h]

/-- Witness for C3 at concrete inputs: a record `("r1", "AC", "!!")`
serialized with `two_headers = true`, and a record without qualities. -/
theorem C3_fastq_layout_witness :
    fastqBytes ⟨[114, 49], [65, 67], some [33, 33], none⟩ true =
      some [64, 114, 49, 10, 65, 67, 10, 43, 114, 49, 10, 33, 33, 10] ∧
    fastqBytes ⟨[114], [65], none, none⟩ false = none := by
  constructor
  · have h := ((C3_fastq_layout ⟨[114, 49], [65, 67], some [33, 33], none⟩
      true).1 [33, 33] rfl).1
    rw [h]; rfl
  · exact (C3_fastq_layout ⟨[114], [65], none, none⟩ false).2.mpr rfl

/-! ## The FASTQ parsing engine: FastqIter

`FastqIter.__next__` (_core.pyx 553-674) scans the buffer from
`record_start` for four successive newline positions using `memchr`,
validates the record, and either emits it, reports an error (with a line
number computed from `number_of_records`), or — when a newline is missing —
refills the buffer via `_read_into_buffer` (_core.pyx 487-548).

We model one scanning attempt over the unparsed suffix of the buffer as
`scanRecord`, the emit loop as `fqDrive`, and a full run of the iterator
over a complete input stream as `fastqParse`.  The model corresponds to a
run in which the reader delivers the whole stream (every delivered chunk is
ASCII-checked by the source, hence the up-front ASCII test), after which
`read()` returns empty, triggering the end-of-file handling of
`_read_into_buffer`. -/

/-- Error kinds raised by the parsing engine, with the reported 0-based line
number (spec section 7).  `nonAscii` models
`FastqFormatError("Non-ASCII characters found in record.")`. -/
inductive FqErr where
  | nonAscii
  | badHeader (line : Nat)
  | badSeparator (line : Nat)
  | headerMismatch (line : Nat)
  | lengthMismatch (line : Nat)
  | prematureEof (line : Nat)
  deriving Repr, DecidableEq

/-- Split a byte string at its first newline, modelling
`memchr(pos, b'\n', n)`: returns the bytes before the first `'\n'` and the
bytes after it, or `none` when there is no newline (NULL result). -/
def takeLine : List Byte → Option (List Byte × List Byte)
  | [] => none
  | b :: rest =>
    if b = 10 then some ([], rest)
    else match takeLine rest with
         | none => none
         | some (l, r) => some (b :: l, r)

/-- The third line is located with a shortcut (_core.pyx 592-600): when
more than two bytes remain and they start with `"+\n"`, the line end is
taken directly; otherwise `memchr` runs as for the other lines. -/
def takeSepLine (l : List Byte) : Option (List Byte × List Byte) :=
  if 2 < l.length ∧ l.take 2 = [43, 10] then some ([43], l.drop 2)
  else takeLine l

/-- CR-stripping of one line (_core.pyx 623-631): the byte before the
line-terminating `'\n'` is checked for `'\r'` and the length reduced by one
when it matches.  On the already-extracted line content this is: drop a
trailing 13.  (When the line is empty the byte before its terminator is the
previous line terminator or a checked `'@'`/`'+'`, never 13, matching
`getLast? = none` here.) -/
def stripCr (l : List Byte) : List Byte :=
  if l.getLast? = some 13 then l.dropLast else l

/-- Result of one scanning attempt at the current `record_start`. -/
inductive ScanResult where
  | needMore
  | fail (e : FqErr)
  | found (r : SequenceRecord) (shLen : Nat) (rest : List Byte)
  deriving Repr, DecidableEq

/-- One attempt of `FastqIter.__next__` (_core.pyx 570-674) to extract a
record from `tail`, the buffer contents from `record_start` on, with
`nrec = self.number_of_records`.

* location of the four newlines, any missing → `needMore` (refill);
* `record_start[0] != b'@'` → error at line `4*nrec`;
* `second_header_start[0] != b'+'` → error at line `4*nrec + 2`;
* CR-compensation on the four line lengths;
* a nonempty second header must match the name: the source compares the
  CR-adjusted lengths and then `memcmp`s `second_header_length` bytes,
  which on the extracted contents is exactly `name ≠ sh`;
* `qualities_length != sequence_length` → error at line `4*nrec + 3`;
* otherwise the record is built from the three spans (`_tags` stays unset)
  and `record_start` advances to past the fourth newline. -/
def scanRecord (tail : List Byte) (nrec : Nat) : ScanResult :=
  match takeLine tail with
  | none => .needMore
  | some (l1, r1) =>
    match takeLine r1 with
    | none => .needMore
    | some (l2, r2) =>
      match takeSepLine r2 with
      | none => .needMore
      | some (l3, r3) =>
        match takeLine r3 with
        | none => .needMore
        | some (l4, r4) =>
          if tail.head? ≠ some 64 then .fail (.badHeader (4 * nrec))
          else if r2.head? ≠ some 43 then .fail (.badSeparator (4 * nrec + 2))
          else
            let name := stripCr (l1.drop 1)
            let seqv := stripCr l2
            let sh := stripCr (l3.drop 1)
            let qual := stripCr l4
            if sh ≠ [] ∧ name ≠ sh then .fail (.headerMismatch (4 * nrec + 2))
            else if qual.length ≠ seqv.length then
              .fail (.lengthMismatch (4 * nrec + 3))
            else .found ⟨name, seqv, some qual, none⟩ sh.length r4

lemma takeLine_length {l a : List Byte} {r : List Byte}
    (h : takeLine l = some (a, r)) : r.length < l.length := by
  induction l generalizing a r with
  | nil => cases h
  | cons b rest ih =>
    unfold takeLine at h
    by_cases hb : b = 10
    · rw [if_pos hb] at h
      cases h
      simp
    · rw [if_neg hb] at h
      cases hr : takeLine rest with
      | none => rw [hr] at h; cases h
      | some p =>
        rw [hr] at h
        cases p with
        | mk l2 r2 =>
          cases h
          have := ih hr
          simp
          omega

lemma takeSepLine_eq (l : List Byte) : takeSepLine l = takeLine l := by
  unfold takeSepLine
  by_cases h : 2 < l.length ∧ l.take 2 = [43, 10]
  · rw [if_pos h]
    obtain ⟨hlen, htake⟩ := h
    match l, hlen with
    | a :: b :: rest, _ =>
      simp at htake
      obtain ⟨ha, hb⟩ := htake
      subst ha hb
      unfold takeLine
      simp
      rfl
  · rw [if_neg h]

lemma scanRecord_found_length {tail : List Byte} {nrec : Nat}
    {r : SequenceRecord} {s : Nat} {rest : List Byte}
    (h : scanRecord tail nrec = .found r s rest) : rest.length < tail.length := by
  unfold scanRecord at h
  split at h
  · cases h
  rename_i l1 r1 h1
  split at h
  · cases h
  rename_i l2 r2 h2
  split at h
  · cases h
  rename_i l3 r3 h3
  split at h
  · cases h
  rename_i l4 r4 h4
  rw [takeSepLine_eq] at h3
  have k1 := takeLine_length h1
  have k2 := takeLine_length h2
  have k3 := takeLine_length h3
  have k4 := takeLine_length h4
  split at h
  · cases h
  split at h
  · cases h
  simp only at h
  split at h
  · cases h
  split at h
  · cases h
  cases h
  omega

/-- Result of running the emit loop until the buffer is exhausted:
either an error was raised, or the loop stopped needing more input, with
the emitted records, the sentinel state (`yielded_two_headers` /
the boolean first yield), the unparsed residual and
`number_of_records`. -/
inductive DriveResult where
  | stopped (recs : List SequenceRecord) (sent : Option Bool)
      (residual : List Byte) (nrec : Nat)
  | failed (e : FqErr)
  deriving Repr, DecidableEq

/-- The emit loop of `FastqIter`: repeatedly scan and emit records until a
scan needs more input or fails.  `sent` records the first yielded value of
the iterator (_core.pyx 648-650): when the first complete record is
scanned, the iterator first yields `bool(second_header_length)` without
advancing, then re-scans the identical record and emits it; the pure
equivalent is to note the sentinel at the first successful scan.

The loop is defined with a structural fuel argument (each emitted record
consumes at least four buffer bytes, so `tail.length` steps always
suffice; `fqDrive` below supplies adequate fuel). -/
def fqDriveF : Nat → List Byte → List SequenceRecord → Option Bool → Nat →
    DriveResult
  | 0, tail, recs, sent, nrec => .stopped recs sent tail nrec
  | fuel + 1, tail, recs, sent, nrec =>
    match scanRecord tail nrec with
    | .needMore => .stopped recs sent tail nrec
    | .fail e => .failed e
    | .found r shLen rest =>
      fqDriveF fuel rest (recs ++ [r]) (sent <|> some (decide (shLen ≠ 0)))
        (nrec + 1)

/-- The emit loop with the fuel supplied. -/
def fqDrive (tail : List Byte) (recs : List SequenceRecord)
    (sent : Option Bool) (nrec : Nat) : DriveResult :=
  fqDriveF (tail.length + 1) tail recs sent nrec

lemma fqDriveF_congr : ∀ {f1 f2 : Nat} {tail : List Byte}
    {recs : List SequenceRecord} {sent : Option Bool} {nrec : Nat},
    tail.length < f1 → tail.length < f2 →
    fqDriveF f1 tail recs sent nrec = fqDriveF f2 tail recs sent nrec
  | f1 + 1, f2 + 1, tail, recs, sent, nrec, h1, h2 => by
    unfold fqDriveF
    cases h : scanRecord tail nrec with
    | needMore => rfl
    | fail e => rfl
    | found r shLen rest =>
      have hl := scanRecord_found_length h
      exact fqDriveF_congr (by omega) (by omega)

/-- Unfolding rule for `fqDrive` when the scan needs more input. -/
lemma fqDrive_needMore {tail : List Byte} {nrec : Nat}
    (h : scanRecord tail nrec = .needMore) (recs : List SequenceRecord)
    (sent : Option Bool) :
    fqDrive tail recs sent nrec = .stopped recs sent tail nrec := by
  unfold fqDrive fqDriveF
  rw [h]

/-- Unfolding rule for `fqDrive` when the scan fails. -/
lemma fqDrive_fail {tail : List Byte} {nrec : Nat} {e : FqErr}
    (h : scanRecord tail nrec = .fail e) (recs : List SequenceRecord)
    (sent : Option Bool) :
    fqDrive tail recs sent nrec = .failed e := by
  unfold fqDrive fqDriveF
  rw [h]

/-- Unfolding rule for `fqDrive` when the scan finds a record. -/
lemma fqDrive_found {tail : List Byte} {nrec : Nat} {r : SequenceRecord}
    {shLen : Nat} {rest : List Byte}
    (h : scanRecord tail nrec = .found r shLen rest)
    (recs : List SequenceRecord) (sent : Option Bool) :
    fqDrive tail recs sent nrec =
      fqDrive rest (recs ++ [r]) (sent <|> some (decide (shLen ≠ 0)))
        (nrec + 1) := by
  have hl := scanRecord_found_length h
  unfold fqDrive fqDriveF
  rw [h]
  exact fqDriveF_congr hl (Nat.lt_succ_self _)

/-- Per-refill ASCII validation (_core.pyx 521-525): every chunk delivered
by the reader is checked with `string_is_ascii`; over a whole run this
checks precisely that every input byte has its high bit clear. -/
def asciiAllB (l : List Byte) : Bool := l.all (fun b => b &&& 128 == 0)

/-- A complete run of `FastqIter` over the byte stream `input`
(delivered by the reader, then EOF), modelling `__next__` together with the
end-of-file handling of `_read_into_buffer` (_core.pyx 528-548):

* when EOF is reached with an empty residual, iteration stops normally;
* when the residual is nonempty and its last byte is not `'\n'` and no
  synthetic newline was appended yet, a single `'\n'` is appended and
  parsing continues;
* otherwise `FastqFormatError('Premature end of file ...')` is raised at
  line `number_of_records * 4 + lines`, where `lines` counts the newlines
  of the residual after removing the synthetic newline (if one was added).

The result is the first yielded boolean (when any record was scanned) and
the list of emitted records. -/
def fastqParse (input : List Byte) :
    Except FqErr (Option Bool × List SequenceRecord) :=
  if asciiAllB input = false then .error .nonAscii
  else
    match fqDrive input [] none 0 with
    | .failed e => .error e
    | .stopped recs sent residual nrec =>
      if residual = [] then .ok (sent, recs)
      else if residual.getLast? = some 10 then
        .error (.prematureEof (4 * nrec + residual.count 10))
      else
        match fqDrive (residual ++ [10]) recs sent nrec with
        | .failed e => .error e
        | .stopped recs2 sent2 residual2 nrec2 =>
          if residual2 = [] then .ok (sent2, recs2)
          else .error (.prematureEof (4 * nrec2 + residual2.dropLast.count 10))

/-! ## Round-trip lemmas: scanning a serialized record -/

lemma takeLine_no_nl_append (l rest : List Byte) (h : ∀ x ∈ l, x ≠ 10) :
    takeLine (l ++ 10 :: rest) = some (l, rest) := by
  induction l with
  | nil => simp [takeLine]
  | cons b t ih =>
    have hb : b ≠ 10 := h b (by simp)
    simp only [List.cons_append, takeLine, List.append_eq, if_neg hb]
    rw [ih (fun x hx => h x (by simp [hx]))]

lemma takeLine_cons_no_nl (b : Byte) (l rest : List Byte) (hb : b ≠ 10)
    (h : ∀ x ∈ l, x ≠ 10) :
    takeLine (b :: (l ++ 10 :: rest)) = some (b :: l, rest) :=
  takeLine_no_nl_append (b :: l) rest (by
    intro x hx
    rcases List.mem_cons.mp hx with h1 | h2
    · subst h1; exact hb
    · exact h x h2)

lemma takeLine_no_nl (l : List Byte) (h : ∀ x ∈ l, x ≠ 10) :
    takeLine l = none := by
  induction l with
  | nil => rfl
  | cons b t ih =>
    have hb : b ≠ 10 := h b (by simp)
    simp only [takeLine, if_neg hb]
    rw [ih (fun x hx => h x (by simp [hx]))]

lemma takeLine_cons_no_nl_none (b : Byte) (l : List Byte) (hb : b ≠ 10)
    (h : ∀ x ∈ l, x ≠ 10) : takeLine (b :: l) = none :=
  takeLine_no_nl (b :: l) (by
    intro x hx
    rcases List.mem_cons.mp hx with h1 | h2
    · subst h1; exact hb
    · exact h x h2)

lemma stripCr_of_no_cr {l : List Byte} (h : ∀ b ∈ l, b ≠ 13) :
    stripCr l = l := by
  unfold stripCr
  split
  · rename_i hl
    exact absurd (List.mem_of_mem_getLast? hl) (fun hm => h 13 hm rfl)
  · rfl

/-- Scanning a buffer that starts with one serialized FASTQ record (with
LF line endings, a second header that is empty or repeats the name, and
newline/CR-free contents of matching lengths) succeeds and consumes exactly
that record. -/
lemma scanRecord_parts (name seqv qual sh0 rest : List Byte) (n : Nat)
    (hna : ∀ b ∈ name, b ≠ 10) (hnc : ∀ b ∈ name, b ≠ 13)
    (hsa : ∀ b ∈ seqv, b ≠ 10) (hsc : ∀ b ∈ seqv, b ≠ 13)
    (hqa : ∀ b ∈ qual, b ≠ 10) (hqc : ∀ b ∈ qual, b ≠ 13)
    (hsh : ∀ b ∈ sh0, b ≠ 10) (hshc : ∀ b ∈ sh0, b ≠ 13)
    (hcase : sh0 = [] ∨ sh0 = name)
    (hlen : qual.length = seqv.length) :
    scanRecord
      (64 :: (name ++ 10 :: (seqv ++ 10 ::
        (43 :: (sh0 ++ 10 :: (qual ++ 10 :: rest)))))) n =
      .found ⟨name, seqv, some qual, none⟩ sh0.length rest := by
  have e1 := takeLine_cons_no_nl 64
    (name) (seqv ++ 10 :: (43 :: (sh0 ++ 10 :: (qual ++ 10 :: rest))))
    (by decide) hna
  have e2 := takeLine_no_nl_append seqv
    (43 :: (sh0 ++ 10 :: (qual ++ 10 :: rest))) hsa
  have e3 := takeLine_cons_no_nl 43 sh0 (qual ++ 10 :: rest) (by decide) hsh
  have e4 := takeLine_no_nl_append qual rest hqa
  simp only [scanRecord, e1, e2, takeSepLine_eq, e3, e4]
  rw [if_neg (by simp)]
  rw [if_neg (by simp)]
  simp only [List.drop_succ_cons, List.drop_zero]
  rw [stripCr_of_no_cr hnc, stripCr_of_no_cr hsc, stripCr_of_no_cr hshc,
    stripCr_of_no_cr hqc]
  rw [if_neg (by
    rcases hcase with hc | hc <;> subst hc <;> simp)]
  rw [if_neg (by simp [hlen])]

/-- Scanning a buffer holding one serialized record whose final newline is
missing needs more input (EOF handling then decides what happens). -/
lemma scanRecord_truncated (name seqv qual sh0 : List Byte) (n : Nat)
    (hna : ∀ b ∈ name, b ≠ 10) (hsa : ∀ b ∈ seqv, b ≠ 10)
    (hqa : ∀ b ∈ qual, b ≠ 10) (hsh : ∀ b ∈ sh0, b ≠ 10) :
    scanRecord
      (64 :: (name ++ 10 :: (seqv ++ 10 :: (43 :: (sh0 ++ 10 :: qual))))) n =
      .needMore := by
  have e1 := takeLine_cons_no_nl 64
    (name) (seqv ++ 10 :: (43 :: (sh0 ++ 10 :: qual))) (by decide) hna
  have e2 := takeLine_no_nl_append seqv (43 :: (sh0 ++ 10 :: qual)) hsa
  have e3 := takeLine_cons_no_nl 43 sh0 qual (by decide) hsh
  have e4 := takeLine_no_nl qual hqa
  simp only [scanRecord, e1, e2, takeSepLine_eq, e3, e4]

/-- Newline/CR-free, 7-bit ASCII byte strings: the well-formedness
condition of claim C1 for each record field. -/
def cleanB (l : List Byte) : Prop := ∀ b ∈ l, b < 128 ∧ b ≠ 10 ∧ b ≠ 13

instance (l : List Byte) : Decidable (cleanB l) :=
  inferInstanceAs (Decidable (∀ b ∈ l, _))

/-- A well-formed record in the sense of claim C1: all three fields
present, ASCII, free of LF and CR, with matching sequence/quality
lengths. -/
def wfRec (r : SequenceRecord) : Prop :=
  cleanB r.name ∧ cleanB r.sequence ∧ r.qualities ≠ none ∧
    cleanB (r.qualities.getD []) ∧
    (r.qualities.getD []).length = r.sequence.length

instance (r : SequenceRecord) : Decidable (wfRec r) :=
  inferInstanceAs (Decidable (_ ∧ _))

/-- The record as the parser emits it: same fields, `_tags` unset. -/
def parsedForm (r : SequenceRecord) : SequenceRecord :=
  ⟨r.name, r.sequence, some (r.qualities.getD []), none⟩

/-- Serialization of a stream of records, each with its own
`two_headers` choice (the layout produced by `fastq_bytes`). -/
def fastqStreamBytes (rs : List (SequenceRecord × Bool)) : List Byte :=
  (rs.map (fun p =>
    fastqLayout p.1.name p.1.sequence (p.1.qualities.getD []) p.2)).flatten

/-- The boolean sentinel yielded before the first record: whether the
first record's third line has a nonempty repeated header. -/
def sentStream (rs : List (SequenceRecord × Bool)) : Option Bool :=
  match rs with
  | [] => none
  | p :: _ => some (decide ((if p.2 then p.1.name else []).length ≠ 0))

lemma fastqLayout_split (name seqv qual sh0 : List Byte) (th : Bool)
    (hsh : sh0 = if th then name else []) (rest : List Byte) :
    fastqLayout name seqv qual th ++ rest =
      64 :: (name ++ 10 :: (seqv ++ 10 ::
        (43 :: (sh0 ++ 10 :: (qual ++ 10 :: rest))))) := by
  subst hsh
  simp [fastqLayout]

lemma scanRecord_layout (name seqv qual rest : List Byte) (th : Bool) (n : Nat)
    (hn : cleanB name) (hs : cleanB seqv) (hq : cleanB qual)
    (hlen : qual.length = seqv.length) :
    scanRecord (fastqLayout name seqv qual th ++ rest) n =
      .found ⟨name, seqv, some qual, none⟩
        (if th then name else []).length rest := by
  rw [fastqLayout_split name seqv qual (if th then name else []) th rfl rest]
  have hsh10 : ∀ b ∈ (if th then name else []), b ≠ 10 := by
    cases th
    · simp
    · simpa using fun b hb => (hn b hb).2.1
  have hsh13 : ∀ b ∈ (if th then name else []), b ≠ 13 := by
    cases th
    · simp
    · simpa using fun b hb => (hn b hb).2.2
  exact scanRecord_parts name seqv qual _ rest n
    (fun b hb => (hn b hb).2.1) (fun b hb => (hn b hb).2.2)
    (fun b hb => (hs b hb).2.1) (fun b hb => (hs b hb).2.2)
    (fun b hb => (hq b hb).2.1) (fun b hb => (hq b hb).2.2)
    hsh10 hsh13
    (by cases th <;> simp) hlen

/-- Driving the emit loop over a serialized stream followed by `rest`
emits exactly the stream's records and continues on `rest`. -/
lemma fqDrive_stream (rs : List (SequenceRecord × Bool)) (rest : List Byte)
    (recs : List SequenceRecord) (sent : Option Bool) (nrec : Nat)
    (hwf : ∀ p ∈ rs, wfRec p.1) :
    fqDrive (fastqStreamBytes rs ++ rest) recs sent nrec =
      fqDrive rest (recs ++ rs.map (fun p => parsedForm p.1))
        (sent <|> sentStream rs) (nrec + rs.length) := by
  induction rs generalizing rest recs sent nrec with
  | nil =>
    simp [fastqStreamBytes, sentStream]
  | cons p t ih =>
    obtain ⟨r, th⟩ := p
    have hwfr := hwf (r, th) (by simp)
    obtain ⟨h1, h2, h3, h4, h5⟩ := hwfr
    have hstream : fastqStreamBytes ((r, th) :: t) ++ rest =
        fastqLayout r.name r.sequence (r.qualities.getD []) th ++
          (fastqStreamBytes t ++ rest) := by
      simp [fastqStreamBytes]
    rw [hstream]
    have hscan := scanRecord_layout r.name r.sequence (r.qualities.getD [])
      (fastqStreamBytes t ++ rest) th nrec h1 h2 h4 h5
    rw [fqDrive_found hscan recs sent]
    rw [ih _ _ _ _ (fun q hq => hwf q (List.mem_cons_of_mem _ hq))]
    congr 1
    · simp [parsedForm]
    · cases sent <;> simp [sentStream, Option.some_orElse, Option.none_orElse]
    · simp; omega

/-! ## ASCII side conditions for parser runs -/

lemma and128_eq_zero_of_lt {b : Nat} (h : b < 128) : b &&& 128 = 0 := by
  have ht : b.testBit 7 = false := Nat.testBit_lt_two_pow h
  have : b &&& 128 = b &&& 2 ^ 7 := by norm_num
  rw [this, Nat.and_two_pow, ht]
  rfl

lemma asciiAllB_of_lt (l : List Byte) (h : ∀ b ∈ l, b < 128) :
    asciiAllB l = true := by
  unfold asciiAllB
  rw [List.all_eq_true]
  intro b hb
  have := and128_eq_zero_of_lt (h b hb)
  simp [this]

lemma fastqLayout_lt (name seqv qual : List Byte) (th : Bool)
    (hn : ∀ b ∈ name, b < 128) (hs : ∀ b ∈ seqv, b < 128)
    (hq : ∀ b ∈ qual, b < 128) :
    ∀ b ∈ fastqLayout name seqv qual th, b < 128 := by
  intro b hb
  have hd : b = 64 ∨ b = 10 ∨ b = 43 ∨ b ∈ name ∨ b ∈ seqv ∨ b ∈ qual := by
    cases th <;> simp [fastqLayout] at hb <;> tauto
  rcases hd with rfl | rfl | rfl | h | h | h
  · decide
  · decide
  · decide
  · exact hn b h
  · exact hs b h
  · exact hq b h

lemma fastqStreamBytes_lt (rs : List (SequenceRecord × Bool))
    (hwf : ∀ p ∈ rs, wfRec p.1) :
    ∀ b ∈ fastqStreamBytes rs, b < 128 := by
  intro b hb
  unfold fastqStreamBytes at hb
  rw [List.mem_flatten] at hb
  obtain ⟨l, hl, hbl⟩ := hb
  rw [List.mem_map] at hl
  obtain ⟨p, hp, rfl⟩ := hl
  obtain ⟨h1, h2, _, h4, _⟩ := hwf p hp
  exact fastqLayout_lt _ _ _ _ (fun x hx => (h1 x hx).1)
    (fun x hx => (h2 x hx).1) (fun x hx => (h4 x hx).1) b hbl

lemma scanRecord_nil (n : Nat) : scanRecord [] n = .needMore := rfl

/-- Claim C1: round-trip.  For every well-formed record `r` (name,
sequence, qualities all 7-bit ASCII, containing no LF or CR, qualities
present with `len(sequence) == len(qualities)`), feeding the bytes
returned by `r.fastq_bytes(two_headers)` to the FASTQ parser yields,
after the initial boolean sentinel, exactly one record whose name,
sequence and qualities equal those of `r` (the parser leaves `_tags`
unset, which is what `parsedForm` records). -/
theorem C1_parse_serialize_roundtrip (r : SequenceRecord) (th : Bool)
    (bs : List Byte) (hwf : wfRec r) (hbs : fastqBytes r th = some bs) :
    fastqParse bs = .ok (sentStream [(r, th)], [parsedForm r]) := by
  obtain ⟨h1, h2, h3, h4, h5⟩ := hwf
  have hqs : r.qualities = some (r.qualities.getD []) := by
    cases hq : r.qualities with
    | none => exact absurd hq h3
    | some q => simp [hq]
  have hb2 : bs = fastqLayout r.name r.sequence (r.qualities.getD []) th := by
    have he := fastqBytes_eq_layout r (r.qualities.getD []) hqs th
    rw [he] at hbs
    exact (Option.some_inj.mp hbs).symm
  subst hb2
  have hascii : asciiAllB
      (fastqLayout r.name r.sequence (r.qualities.getD []) th) = true :=
    asciiAllB_of_lt _ (fastqLayout_lt _ _ _ _ (fun x hx => (h1 x hx).1)
      (fun x hx => (h2 x hx).1) (fun x hx => (h4 x hx).1))
  unfold fastqParse
  rw [hascii]
  simp only [Bool.true_eq_false, if_false]
  have hsb : fastqLayout r.name r.sequence (r.qualities.getD []) th =
      fastqStreamBytes [(r, th)] ++ [] := by
    simp [fastqStreamBytes]
  rw [hsb, fqDrive_stream [(r, th)] [] [] none 0
    (by intro p hp; simp at hp; subst hp; exact ⟨h1, h2, h3, h4, h5⟩)]
  rw [fqDrive_needMore (scanRecord_nil _) _ _]
  simp

/-- Witness for C1: the record `("r1", "ACGT", "!!!!")` of spec scenario
S1, serialized without the repeated header and parsed back. -/
theorem C1_parse_serialize_roundtrip_witness :
    wfRec ⟨[114, 49], [65, 67, 71, 84], some [33, 33, 33, 33], none⟩ ∧
    fastqBytes ⟨[114, 49], [65, 67, 71, 84], some [33, 33, 33, 33], none⟩
      false = some [64, 114, 49, 10, 65, 67, 71, 84, 10, 43, 10,
        33, 33, 33, 33, 10] ∧
    fastqParse [64, 114, 49, 10, 65, 67, 71, 84, 10, 43, 10,
        33, 33, 33, 33, 10] =
      .ok (some false,
        [⟨[114, 49], [65, 67, 71, 84], some [33, 33, 33, 33], none⟩]) := by
  refine ⟨by decide, by decide, ?_⟩
  have h := C1_parse_serialize_roundtrip
    ⟨[114, 49], [65, 67, 71, 84], some [33, 33, 33, 33], none⟩ false
    [64, 114, 49, 10, 65, 67, 71, 84, 10, 43, 10, 33, 33, 33, 33, 10]
    (by decide) (by decide)
  rw [h]
  rfl

/-! ## Claim C2: missing final newline -/

lemma sentStream_append (rs ts : List (SequenceRecord × Bool)) :
    (sentStream rs <|> sentStream ts) = sentStream (rs ++ ts) := by
  cases rs <;>
    simp [sentStream, Option.some_orElse, Option.none_orElse]

instance {e a : Type} [DecidableEq e] [DecidableEq a] :
    DecidableEq (Except e a) := fun
  | .error x, .error y =>
    if h : x = y then isTrue (by rw [h])
    else isFalse (by intro hc; cases hc; exact h rfl)
  | .error _, .ok _ => isFalse (by intro hc; cases hc)
  | .ok _, .error _ => isFalse (by intro hc; cases hc)
  | .ok x, .ok y =>
    if h : x = y then isTrue (by rw [h])
    else isFalse (by intro hc; cases hc; exact h rfl)

/-- Unfolding of `fastqParse` once the emit loop's outcome is known. -/
lemma fastqParse_stopped (input : List Byte) (recs : List SequenceRecord)
    (sent : Option Bool) (residual : List Byte) (nrec : Nat)
    (ha : asciiAllB input = true)
    (hd : fqDrive input [] none 0 = .stopped recs sent residual nrec) :
    fastqParse input =
      (if residual = [] then .ok (sent, recs)
       else if residual.getLast? = some 10 then
         .error (.prematureEof (4 * nrec + residual.count 10))
       else match fqDrive (residual ++ [10]) recs sent nrec with
         | .failed e => .error e
         | .stopped recs2 sent2 residual2 nrec2 =>
           if residual2 = [] then .ok (sent2, recs2)
           else .error
             (.prematureEof (4 * nrec2 + residual2.dropLast.count 10))) := by
  unfold fastqParse
  rw [ha]
  simp only [Bool.true_eq_false, if_false, hd]

/-- Claim C2, counterexample to the claim as stated.  The record
`("n", "", "")` is well-formed (empty sequence and qualities are legal:
the grammar of spec section 6 allows empty lines), its serialization is
`"@n\n\n+\n\n"`, and dropping the terminating newline of the last (quality)
line yields `"@n\n\n+\n"`.  This stream is a complete FASTQ record whose
last line lacks its newline, yet the parser does NOT append a synthetic
newline — the append at _core.pyx 531-537 only happens when the final
buffer byte is not already a newline — and instead of emitting the final
record it raises `PrematureEof` at line 3. -/
theorem C2_counterexample :
    wfRec ⟨[110], [], some [], none⟩ ∧
    fastqBytes ⟨[110], [], some [], none⟩ false =
      some [64, 110, 10, 10, 43, 10, 10] ∧
    [64, 110, 10, 10, 43, 10] = [64, 110, 10, 10, 43, 10, 10].dropLast ∧
    fastqParse [64, 110, 10, 10, 43, 10] = .error (.prematureEof 3) := by
  exact ⟨by decide, by decide, by decide, by decide⟩

/-- Part (a) of the amended claim C2: a serialized stream whose final
newline is dropped still parses to all its records, provided the final
record's qualities are nonempty (so the truncated stream does not already
end in `'\n'` and the synthetic-newline accommodation applies). -/
lemma fastqParse_truncated_stream (rs : List (SequenceRecord × Bool))
    (r : SequenceRecord) (th : Bool)
    (hwf : ∀ p ∈ rs ++ [(r, th)], wfRec p.1)
    (hqne : r.qualities.getD [] ≠ []) :
    fastqParse ((fastqStreamBytes (rs ++ [(r, th)])).dropLast) =
      .ok (sentStream (rs ++ [(r, th)]),
        (rs ++ [(r, th)]).map (fun p => parsedForm p.1)) := by
  obtain ⟨h1, h2, h3, h4, h5⟩ := hwf (r, th) (by simp)
  have hsplit : fastqStreamBytes (rs ++ [(r, th)]) =
      fastqStreamBytes rs ++
        fastqLayout r.name r.sequence (r.qualities.getD []) th := by
    simp [fastqStreamBytes]
  have hlc : fastqLayout r.name r.sequence (r.qualities.getD []) th =
      (64 :: (r.name ++ 10 :: (r.sequence ++ 10 ::
        (43 :: ((if th then r.name else []) ++ 10 ::
          (r.qualities.getD [])))))) ++ [10] := by
    simp [fastqLayout]
  have hdrop : (fastqStreamBytes (rs ++ [(r, th)])).dropLast =
      fastqStreamBytes rs ++
        (64 :: (r.name ++ 10 :: (r.sequence ++ 10 ::
          (43 :: ((if th then r.name else []) ++ 10 ::
            (r.qualities.getD [])))))) := by
    rw [hsplit, hlc, ← List.append_assoc, List.dropLast_concat]
  have hlt := fastqStreamBytes_lt (rs ++ [(r, th)]) hwf
  have hascii : asciiAllB ((fastqStreamBytes (rs ++ [(r, th)])).dropLast)
      = true :=
    asciiAllB_of_lt _ (fun b hb => hlt b (List.dropLast_subset _ hb))
  have hsh10 : ∀ b ∈ (if th then r.name else []), b ≠ 10 := by
    cases th
    · simp
    · simpa using fun b hb => (h1 b hb).2.1
  have hscan := scanRecord_truncated r.name r.sequence
    (r.qualities.getD []) (if th then r.name else []) (0 + rs.length)
    (fun b hb => (h1 b hb).2.1) (fun b hb => (h2 b hb).2.1)
    (fun b hb => (h4 b hb).2.1) hsh10
  have hD : fqDrive ((fastqStreamBytes (rs ++ [(r, th)])).dropLast)
      [] none 0 =
      .stopped ([] ++ rs.map (fun p => parsedForm p.1))
        (none <|> sentStream rs)
        (64 :: (r.name ++ 10 :: (r.sequence ++ 10 ::
          (43 :: ((if th then r.name else []) ++ 10 ::
            (r.qualities.getD []))))))
        (0 + rs.length) := by
    rw [hdrop, fqDrive_stream rs _ [] none 0
      (fun p hp => hwf p (by simp [hp]))]
    exact fqDrive_needMore hscan _ _
  rw [fastqParse_stopped _ _ _ _ _ hascii hD]
  have hTne : ¬ ((64 :: (r.name ++ 10 :: (r.sequence ++ 10 ::
      (43 :: ((if th then r.name else []) ++ 10 ::
        (r.qualities.getD [])))))) = ([] : List Byte)) := by simp
  rw [if_neg hTne]
  have hgl : (64 :: (r.name ++ 10 :: (r.sequence ++ 10 ::
      (43 :: ((if th then r.name else []) ++ 10 ::
        (r.qualities.getD [])))))).getLast? =
      (r.qualities.getD []).getLast? := by
    rw [show (64 :: (r.name ++ 10 :: (r.sequence ++ 10 ::
      (43 :: ((if th then r.name else []) ++ 10 ::
        (r.qualities.getD [])))))) =
      (64 :: (r.name ++ 10 :: (r.sequence ++ 10 ::
        (43 :: ((if th then r.name else []) ++ [10]))))) ++
        (r.qualities.getD []) from by simp]
    exact List.getLast?_append_of_ne_nil _ hqne
  have hTlast : ¬ ((64 :: (r.name ++ 10 :: (r.sequence ++ 10 ::
      (43 :: ((if th then r.name else []) ++ 10 ::
        (r.qualities.getD [])))))).getLast? = some 10) := by
    rw [hgl, List.getLast?_eq_getLast_of_ne_nil hqne]
    intro hc
    have hmem := List.getLast_mem hqne
    have h10 := (h4 _ hmem).2.1
    simp only [Option.some_inj] at hc
    exact h10 hc
  rw [if_neg hTlast]
  have hD2 : fqDrive ((64 :: (r.name ++ 10 :: (r.sequence ++ 10 ::
      (43 :: ((if th then r.name else []) ++ 10 ::
        (r.qualities.getD [])))))) ++ [10])
      ([] ++ rs.map (fun p => parsedForm p.1)) (none <|> sentStream rs)
      (0 + rs.length) =
      .stopped (([] ++ rs.map (fun p => parsedForm p.1)) ++
          [(r, th)].map (fun p => parsedForm p.1))
        ((none <|> sentStream rs) <|> sentStream [(r, th)]) []
        (0 + rs.length + [(r, th)].length) := by
    have happ : (64 :: (r.name ++ 10 :: (r.sequence ++ 10 ::
        (43 :: ((if th then r.name else []) ++ 10 ::
          (r.qualities.getD [])))))) ++ [10] =
        fastqStreamBytes [(r, th)] ++ [] := by
      rw [← hlc]
      simp [fastqStreamBytes]
    rw [happ, fqDrive_stream [(r, th)] [] _ _ _
      (by intro p hp; simp at hp; subst hp; exact ⟨h1, h2, h3, h4, h5⟩)]
    exact fqDrive_needMore (scanRecord_nil _) _ _
  simp only [hD2]
  simp only [Option.none_orElse, sentStream_append]
  simp [parsedForm]

/-- Claim C2 as amended: (a) for every nonempty stream of well-formed
records whose final record has nonempty qualities (equivalently: the
truncated stream does not itself end in a newline), dropping the stream's
final newline still parses to exactly the stream's records, the parser
appending its synthetic `'\n'` (at most once) at EOF; (b) when EOF leaves a
nonempty residual that already ends in `'\n'` (no accommodation possible),
the parser fails with `PrematureEof` at line
`4 * records_emitted + newlines(residual)`; (c) when after the
accommodation the residual still does not form a complete record, it fails
with `PrematureEof` at line `4 * records_emitted + newlines(residual)`,
the synthetic newline not counted (`dropLast` removes it: the synthetic
byte is the last buffer byte at that point). -/
theorem C2_missing_final_newline_amended :
    (∀ (rs : List (SequenceRecord × Bool)) (r : SequenceRecord) (th : Bool),
      (∀ p ∈ rs ++ [(r, th)], wfRec p.1) → r.qualities.getD [] ≠ [] →
      fastqParse ((fastqStreamBytes (rs ++ [(r, th)])).dropLast) =
        .ok (sentStream (rs ++ [(r, th)]),
          (rs ++ [(r, th)]).map (fun p => parsedForm p.1))) ∧
    (∀ (input : List Byte) (recs : List SequenceRecord) (sent : Option Bool)
      (residual : List Byte) (nrec : Nat),
      asciiAllB input = true →
      fqDrive input [] none 0 = .stopped recs sent residual nrec →
      residual ≠ [] → residual.getLast? = some 10 →
      fastqParse input =
        .error (.prematureEof (4 * nrec + residual.count 10))) ∧
    (∀ (input : List Byte) (recs : List SequenceRecord) (sent : Option Bool)
      (residual : List Byte) (nrec : Nat) (recs2 : List SequenceRecord)
      (sent2 : Option Bool) (residual2 : List Byte) (nrec2 : Nat),
      asciiAllB input = true →
      fqDrive input [] none 0 = .stopped recs sent residual nrec →
      residual ≠ [] → ¬ (residual.getLast? = some 10) →
      fqDrive (residual ++ [10]) recs sent nrec =
        .stopped recs2 sent2 residual2 nrec2 →
      residual2 ≠ [] →
      fastqParse input =
        .error (.prematureEof (4 * nrec2 + residual2.dropLast.count 10))) := by
  refine ⟨fastqParse_truncated_stream, ?_, ?_⟩
  · intro input recs sent residual nrec hascii hdrive hne hlast
    rw [fastqParse_stopped _ _ _ _ _ hascii hdrive]
    rw [if_neg hne, if_pos hlast]
  · intro input recs sent residual nrec recs2 sent2 residual2 nrec2 hascii
      hdrive hne hlast hdrive2 hne2
    rw [fastqParse_stopped _ _ _ _ _ hascii hdrive]
    rw [if_neg hne, if_neg hlast]
    simp only [hdrive2]
    rw [if_neg hne2]

/-- Witness for C2 (amended): spec scenario S3, the single record
`("r", "A", "!")` serialized and truncated to `"@r\nA\n+\n!"`, parses to
that record; and a concrete premature-EOF case `"@x\n"` reporting
line 1. -/
theorem C2_missing_final_newline_amended_witness :
    fastqParse [64, 114, 10, 65, 10, 43, 10, 33] =
      .ok (some false, [⟨[114], [65], some [33], none⟩]) ∧
    fastqParse [64, 120, 10] = .error (.prematureEof 1) := by
  constructor
  · have h := C2_missing_final_newline_amended.1 []
      ⟨[114], [65], some [33], none⟩ false (by decide) (by decide)
    simp only [List.nil_append] at h
    have he : (fastqStreamBytes
        [(⟨[114], [65], some [33], none⟩, false)]).dropLast
        = [64, 114, 10, 65, 10, 43, 10, 33] := by decide
    rw [he] at h
    rw [h]
    decide
  · have h := C2_missing_final_newline_amended.2.1 [64, 120, 10]
      [] none [64, 120, 10] 0 (by decide) (by decide) (by decide) (by decide)
    rw [h]
    decide

/-! ## Claim C9: record equality ignores the tag block

`SequenceRecord.__richcmp__` (src/unnamed/part_007 lines 543-553, identical
in _core.pyx 237-247) compares only `_name`, `_sequence` and `_qualities`;
the `_tags` field is never read.  `op` is the CPython rich-comparison code
(`Py_EQ = 2`, `Py_NE = 3`); other codes raise `NotImplementedError`,
modelled as `none`. -/
def richcmp (r1 r2 : SequenceRecord) (op : Nat) : Option Bool :=
  if 2 ≤ op ∧ op ≤ 3 then
    let eq := r1.name == r2.name && r1.sequence == r2.sequence &&
      r1.qualities == r2.qualities
    if op = 2 then some eq else some (!eq)
  else none

/-- Claim C9: record equality ignores auxiliary tags.  For every two
`SequenceRecord` values whose name, sequence and qualities are pairwise
equal, `==` returns true and `!=` returns false, whatever the two `_tags`
fields hold (they are universally quantified here, so equality provably
never inspects them); in particular a BAM-sourced record and its
tag-stripped copy compare equal. -/
theorem C9_eq_ignores_tags (r1 r2 : SequenceRecord)
    (hn : r1.name = r2.name) (hs : r1.sequence = r2.sequence)
    (hq : r1.qualities = r2.qualities) :
    richcmp r1 r2 2 = some true ∧ richcmp r1 r2 3 = some false := by
  unfold richcmp
  rw [if_pos (by omega), if_pos rfl]
  rw [if_pos (by omega), if_neg (by omega)]
  simp [hn, hs, hq]

/-- Witness for C9: two records equal in the three fields but with
different tag blocks (one carries a BAM tag block, the other none). -/
theorem C9_eq_ignores_tags_witness :
    richcmp ⟨[114], [65], some [33], some [77, 78, 67, 4]⟩
        ⟨[114], [65], some [33], none⟩ 2 = some true ∧
    richcmp ⟨[114], [65], some [33], some [77, 78, 67, 4]⟩
        ⟨[114], [65], some [33], none⟩ 3 = some false :=
  C9_eq_ignores_tags ⟨[114], [65], some [33], some [77, 78, 67, 4]⟩
    ⟨[114], [65], some [33], none⟩ rfl rfl rfl

/-! ## Claim C7: the ASCII validation primitive

`string_is_ascii` (src/dnaio/ascii_check.h lines 7-39) runs three loops:
a per-byte loop until the pointer is word-aligned, a `uint64_t` loop that
tests eight bytes at a time against the mask `0x8080808080808080`, and a
per-byte tail loop.  The number of leading singly-checked bytes depends on
the start address; it is modelled as the parameter `pad` (quantified over
all values in the claim's theorem, covering every possible alignment).
A byte check is `*char_ptr & 0x80`; a word check is
`*longword_ptr & ASCII_MASK_8BYTE` on the little-endian 8-byte load. -/

/-- Little-endian value of a byte sequence, modelling the `uint64_t` load
of 8 bytes. -/
def wordOfBytes (bs : List Byte) : Nat :=
  bs.foldr (fun b acc => b + 256 * acc) 0

/-- `ASCII_MASK_8BYTE`. -/
def asciiMask8 : Nat := 0x8080808080808080

/-- The word loop (`while n >= 8`) followed by the per-byte tail loop.
The loop returns 0 at the first failing word/byte; the conjunction of all
checks has the same value. -/
def asciiWords : List Byte → Bool
  | b0 :: b1 :: b2 :: b3 :: b4 :: b5 :: b6 :: b7 :: rest =>
    (wordOfBytes [b0, b1, b2, b3, b4, b5, b6, b7] &&& asciiMask8 == 0) &&
      asciiWords rest
  | l => l.all (fun b => b &&& 128 == 0)

/-- `string_is_ascii(string, length)` for a start address whose misalignment
makes the first loop consume `min pad length` bytes. -/
def stringIsAscii (pad : Nat) (l : List Byte) : Bool :=
  (l.take (min pad l.length)).all (fun b => b &&& 128 == 0) &&
    asciiWords (l.drop (min pad l.length))

/-- `bytes_ascii_check(string, length)` (_core.pyx 34-40): clamp the
requested length (`-1` means the whole string) and call
`string_is_ascii`. -/
def bytesAsciiCheck (s : List Byte) (length : Int) (pad : Nat) : Bool :=
  let n : Int := if length = -1 then (s.length : Int)
    else min length (s.length : Int)
  stringIsAscii pad (s.take n.toNat)

lemma land_byte_step (b x c y : Nat) (hb : b < 256) (hc : c < 256) :
    (b + 256 * x) &&& (c + 256 * y) = (b &&& c) + 256 * (x &&& y) := by
  have h2 : (2 : Nat) ^ 8 = 256 := by norm_num
  have hbc : b &&& c < 256 := lt_of_le_of_lt Nat.and_le_left hb
  apply Nat.eq_of_testBit_eq
  intro i
  rw [Nat.testBit_land]
  rw [show b + 256 * x = 2 ^ 8 * x + b from by rw [h2]; omega]
  rw [show c + 256 * y = 2 ^ 8 * y + c from by rw [h2]; omega]
  rw [show (b &&& c) + 256 * (x &&& y) = 2 ^ 8 * (x &&& y) + (b &&& c) from by
    rw [h2]; omega]
  rw [Nat.testBit_mul_pow_two_add x (h2 ▸ hb) i,
    Nat.testBit_mul_pow_two_add y (h2 ▸ hc) i,
    Nat.testBit_mul_pow_two_add (x &&& y) (h2 ▸ hbc) i]
  by_cases hi : i < 8
  · simp [hi, Nat.testBit_land]
  · simp [hi, Nat.testBit_land]

lemma and128_eq_zero_iff {b : Nat} (hb : b < 256) :
    b &&& 128 = 0 ↔ b < 128 := by
  revert hb
  revert b
  decide

lemma word8_mask (b0 b1 b2 b3 b4 b5 b6 b7 : Nat)
    (h : ∀ b ∈ [b0, b1, b2, b3, b4, b5, b6, b7], b < 256) :
    (wordOfBytes [b0, b1, b2, b3, b4, b5, b6, b7] &&& asciiMask8 = 0) ↔
      ∀ b ∈ [b0, b1, b2, b3, b4, b5, b6, b7], b &&& 128 = 0 := by
  have e : wordOfBytes [b0, b1, b2, b3, b4, b5, b6, b7] =
      b0 + 256 * (b1 + 256 * (b2 + 256 * (b3 + 256 * (b4 + 256 *
        (b5 + 256 * (b6 + 256 * (b7 + 256 * 0))))))) := rfl
  have em : asciiMask8 =
      128 + 256 * (128 + 256 * (128 + 256 * (128 + 256 * (128 + 256 *
        (128 + 256 * (128 + 256 * (128 + 256 * 0))))))) := by decide
  simp only [List.mem_cons, List.not_mem_nil, or_false, forall_eq_or_imp,
    forall_eq] at h
  obtain ⟨h0, h1, h2, h3, h4, h5, h6, h7⟩ := h
  rw [e, em]
  rw [land_byte_step _ _ _ _ h0 (by omega),
    land_byte_step _ _ _ _ h1 (by omega),
    land_byte_step _ _ _ _ h2 (by omega),
    land_byte_step _ _ _ _ h3 (by omega),
    land_byte_step _ _ _ _ h4 (by omega),
    land_byte_step _ _ _ _ h5 (by omega),
    land_byte_step _ _ _ _ h6 (by omega),
    land_byte_step _ _ _ _ h7 (by omega)]
  simp only [List.mem_cons, List.not_mem_nil, or_false, forall_eq_or_imp,
    forall_eq, Nat.zero_and]
  omega

lemma asciiWords_iff (l : List Byte) :
    (∀ b ∈ l, b < 256) → (asciiWords l = true ↔ ∀ b ∈ l, b < 128) := by
  induction l using asciiWords.induct with
  | case1 b0 b1 b2 b3 b4 b5 b6 b7 rest ih =>
    intro h
    have hsub : ∀ b ∈ rest, b < 256 := fun b hb => h b (by simp [hb])
    have hfront : ∀ b ∈ [b0, b1, b2, b3, b4, b5, b6, b7], b < 256 := by
      intro b hb
      simp only [List.mem_cons, List.not_mem_nil, or_false] at hb
      apply h
      rcases hb with rfl | rfl | rfl | rfl | rfl | rfl | rfl | rfl <;> simp
    rw [asciiWords]
    rw [Bool.and_eq_true, ih hsub]
    constructor
    · rintro ⟨hw, hr⟩
      have hw2 := (word8_mask _ _ _ _ _ _ _ _ hfront).mp (by simpa using hw)
      intro b hb
      simp only [List.mem_cons] at hb
      rcases hb with rfl | rfl | rfl | rfl | rfl | rfl | rfl | rfl | hb
      all_goals first
        | exact hr b hb
        | (rw [← and128_eq_zero_iff (hfront _ (by simp))]
           exact hw2 _ (by simp))
    · intro hall
      refine ⟨?_, fun b hb => hall b (by simp [hb])⟩
      have hz : ∀ b ∈ [b0, b1, b2, b3, b4, b5, b6, b7], b &&& 128 = 0 := by
        intro b hb
        rw [and128_eq_zero_iff (hfront b hb)]
        apply hall
        simp only [List.mem_cons, List.not_mem_nil, or_false] at hb
        rcases hb with rfl | rfl | rfl | rfl | rfl | rfl | rfl | rfl <;> simp
      simpa using (word8_mask _ _ _ _ _ _ _ _ hfront).mpr hz
  | case2 l hne =>
    intro h
    rw [asciiWords.eq_2 l hne]
    rw [List.all_eq_true]
    constructor
    · intro hall b hb
      rw [← and128_eq_zero_iff (h b hb)]
      simpa using hall b hb
    · intro hall b hb
      have hz : b &&& 128 = 0 := (and128_eq_zero_iff (h b hb)).mpr (hall b hb)
      simp [hz]

/-- Claim C7: ASCII check.  For every byte string and every start-address
alignment (`pad` leading singly-checked bytes), `string_is_ascii` returns
true if and only if every byte has its high bit clear (is `< 0x80`); in
particular it returns true for the empty input (see the witness); and the
`bytes_ascii_check` wrapper with its default `length = -1` checks exactly
the whole string. -/
theorem C7_ascii_scan (pad : Nat) (l : List Byte) (h : ∀ b ∈ l, b < 256) :
    (stringIsAscii pad l = true ↔ ∀ b ∈ l, b < 128) ∧
    bytesAsciiCheck l (-1) pad = stringIsAscii pad l := by
  constructor
  · unfold stringIsAscii
    rw [Bool.and_eq_true, List.all_eq_true]
    rw [asciiWords_iff _ (fun b hb => h b (List.mem_of_mem_drop hb))]
    constructor
    · rintro ⟨h1, h2⟩ b hb
      rw [← List.take_append_drop (min pad l.length) l] at hb
      rcases List.mem_append.mp hb with h3 | h3
      · have hz := h1 b h3
        rw [← and128_eq_zero_iff (h b (List.mem_of_mem_take h3))]
        simpa using hz
      · exact h2 b h3
    · intro hall
      constructor
      · intro b hb
        have hm : b ∈ l := List.mem_of_mem_take hb
        have hz : b &&& 128 = 0 := (and128_eq_zero_iff (h b hm)).mpr (hall b hm)
        simp [hz]
      · intro b hb
        exact hall b (List.mem_of_mem_drop hb)
  · unfold bytesAsciiCheck
    simp

/-- Witness for C7: an aligned two-byte ASCII string, a string with a high
byte, and the empty input (which the claim singles out). -/
theorem C7_ascii_scan_witness :
    (stringIsAscii 0 [104, 105] = true ↔ ∀ b ∈ [104, 105], b < 128) ∧
    (stringIsAscii 3 [200] = true ↔ ∀ b ∈ [200], b < 128) ∧
    stringIsAscii 5 ([] : List Byte) = true := by
  refine ⟨(C7_ascii_scan 0 [104, 105] (by decide)).1, ?_, ?_⟩
  · exact (C7_ascii_scan 3 [200] (by decide)).1
  · exact (C7_ascii_scan 5 [] (by decide)).1.mpr (by decide)

/-! ## Claim C4: BAM packed-nucleotide decoding

`decode_bam_sequence_default` (src/dnaio/bam.h lines 31-59) expands two
4-bit codes per input byte through the literal 512-entry `code2base` table
(two output characters per possible byte value), then handles an odd final
nucleotide through `nuc_lookup` on the high nibble.
`decode_bam_sequence_ssse3` (lines 66-98) processes 16 input bytes per
iteration while at least 32 output bytes remain: it shifts each 64-bit
lane right by 4 (`_mm_srli_epi64`), masks both vectors with 15, looks the
nibbles up in the 16-byte `nuc_lookup` table via `pshufb`, and interleaves
the results (`unpacklo`/`unpackhi`); the remainder is delegated to the
scalar routine. -/

/-- `nuc_lookup = "=ACMGRSVTWYHKDBN"`. -/
def nucLookup : List Byte := "=ACMGRSVTWYHKDBN".toList.map Char.toNat

/-- The 512-character `code2base` table, transcribed row for row from the
source literal. -/
def code2baseRows : String :=
  "===A=C=M=G=R=S=V=T=W=Y=H=K=D=B=N" ++
  "A=AAACAMAGARASAVATAWAYAHAKADABAN" ++
  "C=CACCCMCGCRCSCVCTCWCYCHCKCDCBCN" ++
  "M=MAMCMMMGMRMSMVMTMWMYMHMKMDMBMN" ++
  "G=GAGCGMGGGRGSGVGTGWGYGHGKGDGBGN" ++
  "R=RARCRMRGRRRSRVRTRWRYRHRKRDRBRN" ++
  "S=SASCSMSGSRSSSVSTSWSYSHSKSDSBSN" ++
  "V=VAVCVMVGVRVSVVVTVWVYVHVKVDVBVN" ++
  "T=TATCTMTGTRTSTVTTTWTYTHTKTDTBTN" ++
  "W=WAWCWMWGWRWSWVWTWWWYWHWKWDWBWN" ++
  "Y=YAYCYMYGYRYSYVYTYWYYYHYKYDYBYN" ++
  "H=HAHCHMHGHRHSHVHTHWHYHHHKHDHBHN" ++
  "K=KAKCKMKGKRKSKVKTKWKYKHKKKDKBKN" ++
  "D=DADCDMDGDRDSDVDTDWDYDHDKDDDBDN" ++
  "B=BABCBMBGBRBSBVBTBWBYBHBKBDBBBN" ++
  "N=NANCNMNGNRNSNVNTNWNYNHNKNDNBNN"

/-- `code2base` as bytes. -/
def code2base : List Byte := code2baseRows.toList.map Char.toNat

/-- `decode_bam_sequence_default`: for `i < length/2`, copy the two table
bytes at offset `encoded[i] * 2`; when the length is odd, write
`nuc_lookup[encoded[length/2] >> 4]` as the final byte. -/
def decodeBamSequenceDefault (enc : List Byte) (length : Nat) : List Byte :=
  (List.range (length / 2)).flatMap (fun i =>
    [code2base.getD (2 * enc.getD i 0) 0,
     code2base.getD (2 * enc.getD i 0 + 1) 0]) ++
  (if length % 2 = 1 then [nucLookup.getD (enc.getD (length / 2) 0 / 16) 0]
   else [])

/-- Byte `i` of the `_mm_srli_epi64`-shifted 16-byte block: the 64-bit
little-endian lane holding byte `i` is shifted right by 4 and byte `i % 8`
of the result extracted. -/
def srliLaneByte (block : List Byte) (i : Nat) : Nat :=
  (if i < 8 then wordOfBytes (block.take 8)
   else wordOfBytes ((block.drop 8).take 8)) / 16 / 256 ^ (i % 8) % 256

/-- One SSSE3 iteration on a 16-byte block: mask the shifted and the
original bytes with 15, shuffle both through `nuc_lookup`, and interleave
(high nibble first). -/
def simdBlockDecode (block : List Byte) : List Byte :=
  (List.range 16).flatMap (fun i =>
    [nucLookup.getD (srliLaneByte block i &&& 15) 0,
     nucLookup.getD (block.getD i 0 &&& 15) 0])

/-- `decode_bam_sequence_ssse3`: the vector loop runs while
`dest_cursor < dest_end - 31`, i.e. for `length / 32` full blocks, then
the scalar routine finishes the remainder. -/
def decodeBamSequenceSsse3 (enc : List Byte) (length : Nat) : List Byte :=
  (List.range (length / 32)).flatMap (fun j =>
    simdBlockDecode ((enc.drop (16 * j)).take 16)) ++
  decodeBamSequenceDefault (enc.drop (16 * (length / 32)))
    (length - 32 * (length / 32))

/-- Modelled from the spec's words (refinement reference, spec section
4.D): each 4-bit code maps to the character at its index in
`"=ACMGRSVTWYHKDBN"`, high nibble of each byte first. -/
def bamNibbleSpec (enc : List Byte) (length : Nat) : List Byte :=
  (List.range length).map (fun i =>
    nucLookup.getD
      (if i % 2 = 0 then enc.getD (i / 2) 0 / 16 else enc.getD (i / 2) 0 % 16)
      0)

lemma code2base_hi : ∀ b < 256,
    code2base.getD (2 * b) 0 = nucLookup.getD (b / 16) 0 := by decide

lemma code2base_lo : ∀ b < 256,
    code2base.getD (2 * b + 1) 0 = nucLookup.getD (b % 16) 0 := by decide

lemma getD_mem_of_lt {a : Type} [Inhabited a] (l : List a) (i : Nat)
    (d : a) (hi : i < l.length) : l.getD i d ∈ l := by
  rw [List.getD_eq_getElem?_getD, List.getElem?_eq_getElem hi]
  simp

lemma getD_of_ge {a : Type} (l : List a) (i : Nat) (d : a)
    (hi : l.length ≤ i) : l.getD i d = d := by
  rw [List.getD_eq_getElem?_getD, List.getElem?_eq_none hi]
  rfl

lemma getD_lt_of_mem_lt {enc : List Byte} (h : ∀ b ∈ enc, b < 256)
    (i : Nat) : enc.getD i 0 < 256 := by
  by_cases hi : i < enc.length
  · exact h _ (getD_mem_of_lt enc i 0 hi)
  · rw [getD_of_ge enc i 0 (by omega)]
    decide

lemma div16_mod16 {x : Nat} (hx : x < 256) : x / 16 % 16 = x / 16 :=
  Nat.mod_eq_of_lt (by omega)

lemma and15_eq_mod (x : Nat) : x &&& 15 = x % 16 := by
  have h := Nat.and_pow_two_sub_one_eq_mod x 4
  norm_num at h
  exact h

lemma getD_take {a : Type} (l : List a) (n j : Nat) (d : a) (h : j < n) :
    (l.take n).getD j d = l.getD j d := by
  rw [List.getD_eq_getElem?_getD, List.getD_eq_getElem?_getD,
    List.getElem?_take, if_pos h]

lemma getD_drop {a : Type} (l : List a) (n j : Nat) (d : a) :
    (l.drop n).getD j d = l.getD (n + j) d := by
  rw [List.getD_eq_getElem?_getD, List.getD_eq_getElem?_getD,
    List.getElem?_drop]

lemma flatMap_congr {a b : Type} (l : List a) (f g : a → List b)
    (h : ∀ x ∈ l, f x = g x) : l.flatMap f = l.flatMap g := by
  induction l with
  | nil => rfl
  | cons x t ih =>
    simp only [List.flatMap_cons]
    rw [h x (by simp), ih (fun y hy => h y (by simp [hy]))]

lemma pair_map {b : Type} (f : Nat → b) (m : Nat) :
    (List.range (2 * m)).map f =
      (List.range m).flatMap (fun i => [f (2 * i), f (2 * i + 1)]) := by
  induction m with
  | zero => rfl
  | succ m ih =>
    rw [show 2 * (m + 1) = 2 * m + 1 + 1 from by omega]
    rw [List.range_succ, List.range_succ, List.range_succ]
    simp only [List.map_append, List.flatMap_append]
    rw [ih]
    simp

lemma range_mul_flatMap {b : Type} (f : Nat → b) (m k : Nat) :
    (List.range (m * k)).map f =
      (List.range k).flatMap (fun j => (List.range m).map
        (fun t => f (m * j + t))) := by
  induction k with
  | zero => simp
  | succ k ih =>
    rw [show m * (k + 1) = m * k + m from by ring]
    rw [List.range_add, List.range_succ]
    simp only [List.map_append, List.flatMap_append, List.map_map]
    rw [ih]
    simp

lemma word_nibble : ∀ (bs : List Byte), (∀ b ∈ bs, b < 256) → ∀ (j : Nat),
    (wordOfBytes bs / 16 / 256 ^ j % 256) &&& 15 = bs.getD j 0 / 16 % 16 := by
  intro bs
  induction bs with
  | nil =>
    intro _ j
    simp [wordOfBytes]
  | cons b t ih =>
    intro h j
    have hb : b < 256 := h b (by simp)
    have hw : wordOfBytes (b :: t) = b + 256 * wordOfBytes t := rfl
    cases j with
    | zero =>
      rw [hw]
      simp only [pow_zero, Nat.div_one, List.getD_cons_zero]
      rw [and15_eq_mod]
      rw [show b + 256 * wordOfBytes t = b + 16 * (16 * wordOfBytes t) from
        by ring]
      rw [Nat.add_mul_div_left _ _ (by norm_num)]
      rw [Nat.mod_mod_of_dvd _ (by norm_num)]
      rw [Nat.add_mul_mod_self_left]
    | succ j =>
      rw [hw]
      have hstep : (b + 256 * wordOfBytes t) / 16 / 256 ^ (j + 1) =
          wordOfBytes t / 16 / 256 ^ j := by
        rw [Nat.div_div_eq_div_mul, Nat.div_div_eq_div_mul]
        rw [show 16 * 256 ^ (j + 1) = 256 * (16 * 256 ^ j) from by ring]
        rw [← Nat.div_div_eq_div_mul]
        rw [show b + 256 * wordOfBytes t = b + 256 * wordOfBytes t from rfl]
        rw [Nat.add_mul_div_left _ _ (by norm_num : (0:Nat) < 256)]
        rw [Nat.div_eq_of_lt hb]
        simp
      rw [hstep, List.getD_cons_succ]
      exact ih (fun x hx => h x (by simp [hx])) j

lemma decodeDefault_eq_spec (enc : List Byte) (length : Nat)
    (h : ∀ b ∈ enc, b < 256) :
    decodeBamSequenceDefault enc length = bamNibbleSpec enc length := by
  obtain ⟨m, r, hr, rfl⟩ : ∃ m r, r < 2 ∧ length = 2 * m + r :=
    ⟨length / 2, length % 2, by omega, by omega⟩
  interval_cases r
  · simp only [Nat.add_zero]
    unfold decodeBamSequenceDefault bamNibbleSpec
    rw [if_neg (by omega), List.append_nil]
    rw [show 2 * m / 2 = m from by omega]
    rw [pair_map]
    apply flatMap_congr
    intro i hi
    have hb := getD_lt_of_mem_lt h i
    rw [code2base_hi _ hb, code2base_lo _ hb]
    have e1 : (2 * i) % 2 = 0 := by omega
    have e2 : (2 * i) / 2 = i := by omega
    have e3 : (2 * i + 1) % 2 = 1 := by omega
    have e4 : (2 * i + 1) / 2 = i := by omega
    simp [e1, e2, e3, e4]
  · unfold decodeBamSequenceDefault bamNibbleSpec
    rw [if_pos (by omega)]
    rw [show (2 * m + 1) / 2 = m from by omega]
    rw [List.range_succ, List.map_append, pair_map]
    congr 1
    · apply flatMap_congr
      intro i hi
      have hb := getD_lt_of_mem_lt h i
      rw [code2base_hi _ hb, code2base_lo _ hb]
      have e1 : (2 * i) % 2 = 0 := by omega
      have e2 : (2 * i) / 2 = i := by omega
      have e3 : (2 * i + 1) % 2 = 1 := by omega
      have e4 : (2 * i + 1) / 2 = i := by omega
      simp [e1, e2, e3, e4]
    · have e1 : (2 * m) % 2 = 0 := by omega
      have e2 : (2 * m) / 2 = m := by omega
      simp [e1, e2]

lemma decodeSsse3_eq_spec (enc : List Byte) (length : Nat)
    (h : ∀ b ∈ enc, b < 256) :
    decodeBamSequenceSsse3 enc length = bamNibbleSpec enc length := by
  obtain ⟨k, rem, hrem, rfl⟩ : ∃ k rem, rem < 32 ∧ length = 32 * k + rem :=
    ⟨length / 32, length % 32, by omega, by omega⟩
  unfold decodeBamSequenceSsse3
  rw [show (32 * k + rem) / 32 = k from by omega]
  rw [show 32 * k + rem - 32 * k = rem from by omega]
  rw [decodeDefault_eq_spec _ _ (fun b hb => h b (List.mem_of_mem_drop hb))]
  unfold bamNibbleSpec
  rw [List.range_add, List.map_append, List.map_map]
  congr 1
  · rw [range_mul_flatMap _ 32 k]
    apply flatMap_congr
    intro j hj
    rw [pair_map (fun t =>
      nucLookup.getD (if (32 * j + t) % 2 = 0
        then enc.getD ((32 * j + t) / 2) 0 / 16
        else enc.getD ((32 * j + t) / 2) 0 % 16) 0) 16]
    unfold simdBlockDecode
    apply flatMap_congr
    intro i hi
    have hi16 : i < 16 := by simpa using hi
    have hblock : ((enc.drop (16 * j)).take 16).getD i 0 =
        enc.getD (16 * j + i) 0 := by
      rw [getD_take _ _ _ _ hi16, getD_drop]
    have hbyte : enc.getD (16 * j + i) 0 < 256 := getD_lt_of_mem_lt h _
    have hup : srliLaneByte ((enc.drop (16 * j)).take 16) i &&& 15 =
        enc.getD (16 * j + i) 0 / 16 % 16 := by
      unfold srliLaneByte
      by_cases hc : i < 8
      · rw [if_pos hc, show i % 8 = i from by omega]
        rw [word_nibble _ (fun b hb => h b
          (List.mem_of_mem_drop (List.mem_of_mem_take
            (List.mem_of_mem_take hb)))) i]
        rw [getD_take _ _ _ _ hc, getD_take _ _ _ _ (by omega : i < 16),
          getD_drop]
      · rw [if_neg hc, show i % 8 = i - 8 from by omega]
        rw [word_nibble _ (fun b hb => h b
          (List.mem_of_mem_drop (List.mem_of_mem_take
            (List.mem_of_mem_drop (List.mem_of_mem_take hb))))) (i - 8)]
        rw [getD_take _ _ _ _ (by omega : i - 8 < 8), getD_drop,
          show 8 + (i - 8) = i from by omega]
        rw [getD_take _ _ _ _ hi16, getD_drop]
    have hlow : ((enc.drop (16 * j)).take 16).getD i 0 &&& 15 =
        enc.getD (16 * j + i) 0 % 16 := by
      rw [hblock, and15_eq_mod]
    rw [hup, hlow]
    have e1 : (32 * j + 2 * i) % 2 = 0 := by omega
    have e2 : (32 * j + 2 * i) / 2 = 16 * j + i := by omega
    have e3 : (32 * j + (2 * i + 1)) % 2 = 1 := by omega
    have e4 : (32 * j + (2 * i + 1)) / 2 = 16 * j + i := by omega
    have hbyte2 : (enc[16 * j + i]?).getD 0 < 256 := by
      rw [← List.getD_eq_getElem?_getD]
      exact hbyte
    have e5 : (enc[16 * j + i]?).getD 0 / 16 % 16 =
        (enc[16 * j + i]?).getD 0 / 16 := div16_mod16 hbyte2
    simp [e1, e2, e3, e4, e5]
  · apply List.map_congr_left
    intro t ht
    rw [getD_drop]
    have e1 : (32 * k + t) % 2 = t % 2 := by omega
    have e2 : (32 * k + t) / 2 = 16 * k + t / 2 := by omega
    simp [e1, e2]

/-- Claim C4: BAM packed-nucleotide decoding.  For every encoded input
(bytes in range) and every sequence length, the scalar 512-entry
two-nibble-table path maps each 4-bit code `c` to index `c` of
`"=ACMGRSVTWYHKDBN"`, high nibble of each byte before the low nibble, and
for odd lengths writes only the final high nibble (this is
`bamNibbleSpec`, the spec's description); the SIMD 16-way byte-shuffle
path computes the same function, so the scalar and SIMD paths produce
identical output on every input. -/
theorem C4_bam_nibble_decode (enc : List Byte) (length : Nat)
    (h : ∀ b ∈ enc, b < 256) :
    decodeBamSequenceDefault enc length = bamNibbleSpec enc length ∧
    decodeBamSequenceSsse3 enc length = bamNibbleSpec enc length ∧
    decodeBamSequenceSsse3 enc length = decodeBamSequenceDefault enc length
    := by
  refine ⟨decodeDefault_eq_spec enc length h,
    decodeSsse3_eq_spec enc length h, ?_⟩
  rw [decodeDefault_eq_spec enc length h, decodeSsse3_eq_spec enc length h]

/-- Witness for C4: the packed bytes `{0x12, 0x48}` of spec scenario S6
decode to `"ACGT"` (length 4) and to `"ACG"` (odd length 3, final high
nibble only); the SIMD path agrees. -/
theorem C4_bam_nibble_decode_witness :
    decodeBamSequenceDefault [18, 72] 4 = [65, 67, 71, 84] ∧
    decodeBamSequenceSsse3 [18, 72] 4 = decodeBamSequenceDefault [18, 72] 4 ∧
    decodeBamSequenceDefault [18, 72] 3 = [65, 67, 71] := by
  have h4 := C4_bam_nibble_decode [18, 72] 4 (by decide)
  have h3 := C4_bam_nibble_decode [18, 72] 3 (by decide)
  refine ⟨?_, h4.2.2, ?_⟩
  · rw [h4.1]; decide
  · rw [h3.1]; decide

/-! ## Claim C6: PairedHeadScan (`paired_fastq_heads`)

`paired_fastq_heads` (_core.pyx 385-431) scans the two buffers (clamped to
`min(end, len)`) for newlines in lockstep with `memchr`; every fourth
synchronized newline records the two positions just past it
(`record_start1/2`); reaching either end returns the last recorded pair.
The loop is modelled with a structural fuel argument (every iteration
consumes at least one byte of the first buffer). -/
def pfhLoopF : Nat → List Byte → List Byte → Nat → Nat → Nat → Nat → Nat →
    Nat × Nat
  | 0, _, _, _, _, _, rs1, rs2 => (rs1, rs2)
  | fuel + 1, t1, t2, p1, p2, lb, rs1, rs2 =>
    match takeLine t1 with
    | none => (rs1, rs2)
    | some (l1, t1x) =>
      match takeLine t2 with
      | none => (rs1, rs2)
      | some (l2, t2x) =>
        if lb + 1 = 4 then
          pfhLoopF fuel t1x t2x (p1 + l1.length + 1) (p2 + l2.length + 1) 0
            (p1 + l1.length + 1) (p2 + l2.length + 1)
        else
          pfhLoopF fuel t1x t2x (p1 + l1.length + 1) (p2 + l2.length + 1)
            (lb + 1) rs1 rs2

/-- `paired_fastq_heads(buf1, buf2, end1, end2)` with nonnegative bounds
(negative `Py_ssize_t` bounds would make the C scan read out of bounds and
are outside this model). -/
def pairedFastqHeads (buf1 buf2 : List Byte) (end1 end2 : Nat) : Nat × Nat :=
  pfhLoopF (min end1 buf1.length + 1) (buf1.take (min end1 buf1.length))
    (buf2.take (min end2 buf2.length)) 0 0 0 0 0

/-- Offset just past the `k`-th newline of `l` (0 when `k = 0` or when
there are not enough newlines). -/
def posAfterNl (l : List Byte) : Nat → Nat
  | 0 => 0
  | k + 1 =>
    match takeLine l with
    | none => 0
    | some (a, r) => a.length + 1 + posAfterNl r k

lemma takeLine_eq_some_iff {l a r : List Byte}
    (h : takeLine l = some (a, r)) :
    l = a ++ 10 :: r ∧ ∀ x ∈ a, x ≠ 10 := by
  induction l generalizing a r with
  | nil => cases h
  | cons b t ih =>
    unfold takeLine at h
    by_cases hb : b = 10
    · rw [if_pos hb] at h
      cases h
      subst hb
      exact ⟨rfl, by simp⟩
    · rw [if_neg hb] at h
      cases ht : takeLine t with
      | none => rw [ht] at h; cases h
      | some p =>
        rw [ht] at h
        obtain ⟨a2, r2⟩ := p
        cases h
        obtain ⟨he, hn⟩ := ih ht
        constructor
        · rw [List.cons_append, ← he]
        · intro x hx
          rcases List.mem_cons.mp hx with rfl | hx2
          · exact hb
          · exact hn x hx2

lemma takeLine_eq_none_iff {l : List Byte} (h : takeLine l = none) :
    ∀ x ∈ l, x ≠ 10 := by
  induction l with
  | nil => simp
  | cons b t ih =>
    unfold takeLine at h
    by_cases hb : b = 10
    · rw [if_pos hb] at h; cases h
    · rw [if_neg hb] at h
      intro x hx
      rcases List.mem_cons.mp hx with rfl | hx2
      · exact hb
      · cases ht : takeLine t with
        | none => exact ih ht x hx2
        | some p => rw [ht] at h; obtain ⟨a, r⟩ := p; cases h

lemma count_of_takeLine_none {l : List Byte} (h : takeLine l = none) :
    l.count 10 = 0 :=
  List.count_eq_zero.mpr (fun hm => takeLine_eq_none_iff h 10 hm rfl)

lemma count_of_takeLine_some {l a r : List Byte}
    (h : takeLine l = some (a, r)) : l.count 10 = r.count 10 + 1 := by
  obtain ⟨he, hn⟩ := takeLine_eq_some_iff h
  rw [he, List.count_append, List.count_cons]
  have ha0 : a.count 10 = 0 := List.count_eq_zero.mpr (fun hm => hn 10 hm rfl)
  simp [ha0]

lemma pfhLoopF_closed : ∀ (fuel : Nat) (t1 t2 : List Byte)
    (p1 p2 lb rs1 rs2 : Nat), t1.length < fuel → lb < 4 →
    pfhLoopF fuel t1 t2 p1 p2 lb rs1 rs2 =
      (if (lb + min (t1.count 10) (t2.count 10)) / 4 = 0 then (rs1, rs2)
       else
        (p1 + posAfterNl t1
          (4 * ((lb + min (t1.count 10) (t2.count 10)) / 4) - lb),
         p2 + posAfterNl t2
          (4 * ((lb + min (t1.count 10) (t2.count 10)) / 4) - lb))) := by
  intro fuel
  induction fuel with
  | zero => intro t1 t2 p1 p2 lb rs1 rs2 h1 _; omega
  | succ fuel ih =>
    intro t1 t2 p1 p2 lb rs1 rs2 h1 hlb
    cases ht1 : takeLine t1 with
    | none =>
      simp only [pfhLoopF, ht1]
      rw [count_of_takeLine_none ht1]
      simp only [Nat.min_def]
      rw [if_pos (by split <;> omega)]
    | some q1 =>
      obtain ⟨l1, t1x⟩ := q1
      cases ht2 : takeLine t2 with
      | none =>
        simp only [pfhLoopF, ht1, ht2]
        rw [count_of_takeLine_none ht2]
        rw [if_pos (by omega)]
      | some q2 =>
        obtain ⟨l2, t2x⟩ := q2
        simp only [pfhLoopF, ht1, ht2]
        have hc1 := count_of_takeLine_some ht1
        have hc2 := count_of_takeLine_some ht2
        have hl1 := takeLine_length ht1
        have hmin : min (t1.count 10) (t2.count 10) =
            min (t1x.count 10) (t2x.count 10) + 1 := by omega
        have hpos1 : ∀ k, posAfterNl t1 (k + 1) =
            l1.length + 1 + posAfterNl t1x k := by
          intro k
          simp only [posAfterNl, ht1]
        have hpos2 : ∀ k, posAfterNl t2 (k + 1) =
            l2.length + 1 + posAfterNl t2x k := by
          intro k
          simp only [posAfterNl, ht2]
        by_cases hlb4 : lb + 1 = 4
        · rw [if_pos hlb4]
          rw [ih t1x t2x _ _ 0 _ _ (by omega) (by omega)]
          rw [hmin]
          generalize List.count 10 t1x ⊓ List.count 10 t2x = m
          have hg : (lb + (m + 1)) / 4 = m / 4 + 1 := by omega
          rw [hg, if_neg (by omega : ¬ (m / 4 + 1 = 0))]
          by_cases hg0 : m / 4 = 0
          · rw [if_pos (by omega : (0 + m) / 4 = 0)]
            have h41 : 4 * (m / 4 + 1) - lb = 0 + 1 := by omega
            rw [h41, hpos1 0, hpos2 0]
            simp only [posAfterNl, Prod.mk.injEq]
            constructor <;> omega
          · rw [if_neg (by omega : ¬ ((0 + m) / 4 = 0))]
            have h40 : 4 * ((0 + m) / 4) - 0 = 4 * (m / 4) := by omega
            have h41 : 4 * (m / 4 + 1) - lb = 4 * (m / 4) + 1 := by omega
            rw [h40, h41, hpos1 (4 * (m / 4)), hpos2 (4 * (m / 4))]
            simp only [Prod.mk.injEq]
            constructor <;> omega
        · rw [if_neg hlb4]
          rw [ih t1x t2x _ _ (lb + 1) _ _ (by omega) (by omega)]
          rw [hmin]
          generalize List.count 10 t1x ⊓ List.count 10 t2x = m
          have hg : lb + (m + 1) = (lb + 1) + m := by omega
          rw [hg]
          by_cases hg0 : ((lb + 1) + m) / 4 = 0
          · rw [if_pos hg0, if_pos hg0]
          · rw [if_neg hg0, if_neg hg0]
            have h41 : 4 * (((lb + 1) + m) / 4) - lb =
                (4 * (((lb + 1) + m) / 4) - (lb + 1)) + 1 := by omega
            rw [h41, hpos1, hpos2]
            simp only [Prod.mk.injEq]
            constructor <;> omega

lemma takeLine_of_count_pos {l : List Byte} (h : 0 < l.count 10) :
    ∃ a r, takeLine l = some (a, r) := by
  cases ht : takeLine l with
  | none => rw [count_of_takeLine_none ht] at h; omega
  | some p =>
    obtain ⟨a, r⟩ := p
    exact ⟨a, r, rfl⟩

lemma posAfterNl_count : ∀ (k : Nat) (l : List Byte), k ≤ l.count 10 →
    (l.take (posAfterNl l k)).count 10 = k ∧ posAfterNl l k ≤ l.length := by
  intro k
  induction k with
  | zero => intro l _; simp [posAfterNl]
  | succ k ih =>
    intro l hk
    obtain ⟨a, r, ht⟩ := takeLine_of_count_pos (show 0 < l.count 10 by omega)
    have hcount := count_of_takeLine_some ht
    obtain ⟨he, hna⟩ := takeLine_eq_some_iff ht
    have ha0 : a.count 10 = 0 :=
      List.count_eq_zero.mpr (fun hm => hna 10 hm rfl)
    have hik := ih r (by omega)
    simp only [posAfterNl, ht]
    constructor
    · rw [he, List.take_append_eq_append_take]
      rw [List.take_of_length_le (by omega)]
      rw [show a.length + 1 + posAfterNl r k - a.length =
        posAfterNl r k + 1 from by omega]
      rw [List.count_append]
      rw [show (10 : Byte) :: r = [10] ++ r from rfl]
      rw [show posAfterNl r k + 1 = 1 + posAfterNl r k from by omega]
      rw [List.take_append_eq_append_take]
      rw [List.take_of_length_le (by simp)]
      rw [List.count_append]
      simp only [show (1 : Nat) + posAfterNl r k - List.length [(10 : Byte)] =
        posAfterNl r k from by simp]
      rw [hik.1, ha0]
      simp
      omega
    · rw [he]
      simp only [List.length_append, List.length_cons]
      have := hik.2
      omega

/-- Claim C6: PairedHeadScan postcondition and maximality.  With
`a`/`b` the two buffers clamped to the supplied bounds and
`K = 4 * (min(newlines(a), newlines(b)) / 4)`:
`paired_fastq_heads` returns `(len1, len2)` positioned just past the
`K`-th newline of each buffer; the two prefixes contain the same number
`K` of complete lines; that number is a multiple of four; both offsets are
within bounds; no pair of prefixes within the bounds has a larger common
newline count that is a multiple of four; and when no positive such pair
exists the result is `(0, 0)`.  (The buffers are only read: the model is a
pure function, as is the source, which releases its buffer views
unmodified.) -/
theorem C6_paired_fastq_heads (buf1 buf2 : List Byte) (end1 end2 : Nat) :
    pairedFastqHeads buf1 buf2 end1 end2 =
      (posAfterNl (buf1.take (min end1 buf1.length))
        (4 * (min ((buf1.take (min end1 buf1.length)).count 10)
          ((buf2.take (min end2 buf2.length)).count 10) / 4)),
       posAfterNl (buf2.take (min end2 buf2.length))
        (4 * (min ((buf1.take (min end1 buf1.length)).count 10)
          ((buf2.take (min end2 buf2.length)).count 10) / 4))) ∧
    (∀ a b K, a = buf1.take (min end1 buf1.length) →
      b = buf2.take (min end2 buf2.length) →
      K = 4 * (min (a.count 10) (b.count 10) / 4) →
      (a.take (posAfterNl a K)).count 10 = K ∧
      (b.take (posAfterNl b K)).count 10 = K ∧
      K % 4 = 0 ∧
      posAfterNl a K ≤ a.length ∧ posAfterNl b K ≤ b.length ∧
      (∀ m1 m2, (a.take m1).count 10 = (b.take m2).count 10 →
        (a.take m1).count 10 % 4 = 0 → (a.take m1).count 10 ≤ K) ∧
      (min (a.count 10) (b.count 10) / 4 = 0 →
        pairedFastqHeads buf1 buf2 end1 end2 = (0, 0))) := by
  have hclosed := pfhLoopF_closed (min end1 buf1.length + 1)
    (buf1.take (min end1 buf1.length)) (buf2.take (min end2 buf2.length))
    0 0 0 0 0 (by simp [List.length_take]; try omega) (by omega)
  have hmain : pairedFastqHeads buf1 buf2 end1 end2 =
      (posAfterNl (buf1.take (min end1 buf1.length))
        (4 * (min ((buf1.take (min end1 buf1.length)).count 10)
          ((buf2.take (min end2 buf2.length)).count 10) / 4)),
       posAfterNl (buf2.take (min end2 buf2.length))
        (4 * (min ((buf1.take (min end1 buf1.length)).count 10)
          ((buf2.take (min end2 buf2.length)).count 10) / 4))) := by
    unfold pairedFastqHeads
    rw [hclosed]
    simp only [Nat.zero_add, Nat.sub_zero]
    by_cases h0 : min ((buf1.take (min end1 buf1.length)).count 10)
        ((buf2.take (min end2 buf2.length)).count 10) / 4 = 0
    · rw [if_pos h0, h0]
      simp [posAfterNl]
    · rw [if_neg h0]
  refine ⟨hmain, ?_⟩
  rintro a b K rfl rfl rfl
  have hK1 : 4 * (min ((buf1.take (min end1 buf1.length)).count 10)
      ((buf2.take (min end2 buf2.length)).count 10) / 4) ≤
      (buf1.take (min end1 buf1.length)).count 10 := by omega
  have hK2 : 4 * (min ((buf1.take (min end1 buf1.length)).count 10)
      ((buf2.take (min end2 buf2.length)).count 10) / 4) ≤
      (buf2.take (min end2 buf2.length)).count 10 := by omega
  have hp1 := posAfterNl_count _ _ hK1
  have hp2 := posAfterNl_count _ _ hK2
  refine ⟨hp1.1, hp2.1, by omega, hp1.2, hp2.2, ?_, ?_⟩
  · intro m1 m2 heq hmod
    have hle1 : ((buf1.take (min end1 buf1.length)).take m1).count 10 ≤
        (buf1.take (min end1 buf1.length)).count 10 :=
      (List.take_sublist _ _).count_le 10
    have hle2 : ((buf2.take (min end2 buf2.length)).take m2).count 10 ≤
        (buf2.take (min end2 buf2.length)).count 10 :=
      (List.take_sublist _ _).count_le 10
    omega
  · intro h0
    rw [hmain]
    rw [show 4 * (min ((buf1.take (min end1 buf1.length)).count 10)
      ((buf2.take (min end2 buf2.length)).count 10) / 4) = 0 from by omega]
    simp [posAfterNl]

/-- Witness for C6: buffer one is `"\n\n\n\nA"`, buffer two `"B\n\n\n\n"`;
four synchronized newlines exist, so the heads end just past the fourth
newline of each: offsets `(4, 5)`. -/
theorem C6_paired_fastq_heads_witness :
    pairedFastqHeads [10, 10, 10, 10, 65] [66, 10, 10, 10, 10] 5 5 =
      (4, 5) := by
  have h := (C6_paired_fastq_heads [10, 10, 10, 10, 65]
    [66, 10, 10, 10, 10] 5 5).1
  rw [h]
  decide

/- ### Mate identity (`is_mate` / `record_ids_match`), claims C8 and C10.

Names are modelled as the byte lists backing the C strings; the C buffer
carries a terminating NUL one past the end, so a read at index `i` is in
bounds exactly when `0 ≤ i ≤ length`.  `charNul h i` is the byte the C
code observes at any such index.  `strcspn(header, " \t")` scans to the
first space, tab or NUL and is `idLen`. -/

def stopB (b : Byte) : Bool := b == 32 || b == 9 || b == 0

def charNul (h : List Byte) (i : Nat) : Byte := (h ++ [0]).getD i 0

def idLen : List Byte → Nat
  | [] => 0
  | b :: t => if stopB b then 0 else idLen t + 1

/-- The test `b'1' <= chars[i] <= b'3'` at a (modelled, in-bounds) index. -/
def digitFlag (h : List Byte) (i : Nat) : Bool :=
  decide (49 ≤ charNul h i ∧ charNul h i ≤ 51)

/-- `record_ids_match` (\_core.pyx 877-905).  `none` models the
out-of-bounds read `header2[id1_length - 1]` performed (as size_t
underflow to `SIZE_MAX`) when `id1_length == 0` survives both guards:
from there the C result depends on a byte outside either string. -/
def recordIdsMatch (header1 header2 : List Byte)
    (id1Length header2Length : Nat) (id1EndsWithNumber : Bool) : Option Bool :=
  if header2Length < id1Length then some false
  else if stopB (charNul header2 id1Length) then
    if id1Length = 0 then none
    else
      some (decide (header1.take
          (if id1EndsWithNumber && digitFlag header2 (id1Length - 1)
           then id1Length - 1 else id1Length) =
        header2.take
          (if id1EndsWithNumber && digitFlag header2 (id1Length - 1)
           then id1Length - 1 else id1Length)))
  else some false

/-- `SequenceRecord.is_mate` (\_core.pyx 319-341): computes
`id1_length = strcspn(header1, " \t")` and the trailing-digit flag from
`header1[id1_length - 1]` before delegating.  When the first ID is empty
that read is at index `-1`, outside the string: `none`. -/
def isMate (name1 name2 : List Byte) : Option Bool :=
  if idLen name1 = 0 then none
  else recordIdsMatch name1 name2 (idLen name1) name2.length
    (digitFlag name1 (idLen name1 - 1))

lemma idLen_le (h : List Byte) : idLen h ≤ h.length := by
  induction h with
  | nil => simp [idLen]
  | cons b t ih =>
    simp only [idLen, List.length_cons]
    split
    · omega
    · omega

lemma charNul_cons (b : Byte) (t : List Byte) (i : Nat) :
    charNul (b :: t) (i + 1) = charNul t i := by
  simp [charNul]

lemma charNul_cons_zero (b : Byte) (t : List Byte) :
    charNul (b :: t) 0 = b := by
  simp [charNul]

lemma charNul_nil (i : Nat) : charNul [] i = 0 := by
  cases i <;> simp [charNul, List.getD]

lemma stop_lt_idLen : ∀ (h : List Byte) (i : Nat), i < idLen h →
    stopB (charNul h i) = false := by
  intro h
  induction h with
  | nil => intro i hi; simp [idLen] at hi
  | cons b t ih =>
    intro i hi
    simp only [idLen] at hi
    by_cases hb : stopB b
    · rw [if_pos hb] at hi; omega
    · rw [if_neg hb] at hi
      cases i with
      | zero => rw [charNul_cons_zero]; exact Bool.eq_false_iff.mpr hb
      | succ j => rw [charNul_cons]; exact ih j (by omega)

lemma stop_at_idLen : ∀ (h : List Byte), stopB (charNul h (idLen h)) = true := by
  intro h
  induction h with
  | nil => simp [idLen, charNul_nil, stopB]
  | cons b t ih =>
    simp only [idLen]
    by_cases hb : stopB b
    · rw [if_pos hb, charNul_cons_zero]; exact hb
    · rw [if_neg hb, charNul_cons]; exact ih

lemma idLen_spec : ∀ (h : List Byte) (k : Nat),
    (∀ i, i < k → stopB (charNul h i) = false) →
    stopB (charNul h k) = true → idLen h = k := by
  intro h
  induction h with
  | nil =>
    intro k hfree _
    cases k with
    | zero => rfl
    | succ j =>
      have := hfree 0 (by omega)
      rw [charNul_nil] at this
      simp [stopB] at this
  | cons b t ih =>
    intro k hfree hstop
    cases k with
    | zero =>
      rw [charNul_cons_zero] at hstop
      simp only [idLen, if_pos hstop]
    | succ j =>
      have hb : stopB b = false := by
        have := hfree 0 (by omega)
        rwa [charNul_cons_zero] at this
      simp only [idLen, if_neg (by simp [hb] : ¬ stopB b = true)]
      have hj : idLen t = j := by
        apply ih j
        · intro i hi
          have := hfree (i + 1) (by omega)
          rwa [charNul_cons] at this
        · rw [charNul_cons] at hstop; exact hstop
      omega

lemma charNul_lt {h : List Byte} {i : Nat} (hi : i < h.length) :
    charNul h i = h.getD i 0 := by
  unfold charNul
  rw [show h ++ [0] = h ++ [0] from rfl]
  have : ((h ++ [0]).take h.length).getD i 0 = (h ++ [0]).getD i 0 :=
    getD_take _ _ _ _ hi
  rw [← this, List.take_left]

lemma charNul_prefix_eq {h1 h2 : List Byte} {n i : Nat}
    (ht : h1.take n = h2.take n) (hi : i < n)
    (hn1 : n ≤ h1.length) (hn2 : n ≤ h2.length) :
    charNul h1 i = charNul h2 i := by
  rw [charNul_lt (by omega), charNul_lt (by omega),
    ← getD_take h1 n i 0 hi, ← getD_take h2 n i 0 hi, ht]

lemma digit_not_stop {h : List Byte} {i : Nat}
    (hd : digitFlag h i = true) : stopB (charNul h i) = false := by
  have h1 : 49 ≤ charNul h i ∧ charNul h i ≤ 51 := of_decide_eq_true hd
  have e32 : charNul h i ≠ 32 := fun e => by
    rw [e] at h1; exact absurd h1.1 (by decide)
  have e9 : charNul h i ≠ 9 := fun e => by
    rw [e] at h1; exact absurd h1.1 (by decide)
  have e0 : charNul h i ≠ 0 := fun e => by
    rw [e] at h1; exact absurd h1.1 (by decide)
  unfold stopB
  simp [e32, e9, e0]

lemma isMate_isSome (n1 n2 : List Byte) (h1 : 1 ≤ idLen n1) :
    ∃ b, isMate n1 n2 = some b := by
  unfold isMate recordIdsMatch
  rw [if_neg (by omega : ¬ idLen n1 = 0)]
  split
  · exact ⟨false, rfl⟩
  · split
    · rw [if_neg (by omega : ¬ idLen n1 = 0)]
      exact ⟨_, rfl⟩
    · exact ⟨false, rfl⟩

lemma isMate_true_symm (n1 n2 : List Byte) (h1 : 1 ≤ idLen n1)
    (ht : isMate n1 n2 = some true) : isMate n2 n1 = some true := by
  unfold isMate at ht
  rw [if_neg (by omega : ¬ idLen n1 = 0)] at ht
  unfold recordIdsMatch at ht
  by_cases g1 : n2.length < idLen n1
  · rw [if_pos g1] at ht; simp at ht
  rw [if_neg g1] at ht
  by_cases g2 : stopB (charNul n2 (idLen n1)) = true
  · rw [if_pos g2, if_neg (by omega : ¬ idLen n1 = 0)] at ht
    have htake : n1.take
        (if digitFlag n1 (idLen n1 - 1) && digitFlag n2 (idLen n1 - 1)
         then idLen n1 - 1 else idLen n1) =
        n2.take
        (if digitFlag n1 (idLen n1 - 1) && digitFlag n2 (idLen n1 - 1)
         then idLen n1 - 1 else idLen n1) := by
      have := Option.some.inj ht
      exact of_decide_eq_true this
    have hL1le : idLen n1 ≤ n1.length := idLen_le n1
    have hL2le : idLen n1 ≤ n2.length := by omega
    -- the compared prefix length: idLen n1 or idLen n1 - 1
    by_cases hd : (digitFlag n1 (idLen n1 - 1) && digitFlag n2 (idLen n1 - 1)) = true
    all_goals (
      first
        | rw [if_pos hd] at htake
        | rw [if_neg hd] at htake)
    -- case: both digit flags set, compare idLen n1 - 1 bytes
    · have hd2 : digitFlag n2 (idLen n1 - 1) = true := by
        have hd' := hd
        simp only [Bool.and_eq_true] at hd'
        exact hd'.2
      have hfree : ∀ i, i < idLen n1 → stopB (charNul n2 i) = false := by
        intro i hi
        by_cases hin : i < idLen n1 - 1
        · rw [← charNul_prefix_eq htake hin (by omega) (by omega)]
          exact stop_lt_idLen n1 i hi
        · have : i = idLen n1 - 1 := by omega
          rw [this]
          exact digit_not_stop hd2
      have hL2 : idLen n2 = idLen n1 := idLen_spec n2 (idLen n1) hfree g2
      unfold isMate recordIdsMatch
      rw [hL2, if_neg (by omega : ¬ idLen n1 = 0),
        if_neg (by omega : ¬ n1.length < idLen n1),
        if_pos (stop_at_idLen n1),
        if_neg (by omega : ¬ idLen n1 = 0)]
      rw [if_pos (by
        rw [Bool.and_comm]
        exact hd)]
      exact congrArg some (decide_eq_true htake.symm)
    -- case: flags not both set, compare idLen n1 bytes
    · have hfree : ∀ i, i < idLen n1 → stopB (charNul n2 i) = false := by
        intro i hi
        rw [← charNul_prefix_eq htake hi (by omega) (by omega)]
        exact stop_lt_idLen n1 i hi
      have hL2 : idLen n2 = idLen n1 := idLen_spec n2 (idLen n1) hfree g2
      unfold isMate recordIdsMatch
      rw [hL2, if_neg (by omega : ¬ idLen n1 = 0),
        if_neg (by omega : ¬ n1.length < idLen n1),
        if_pos (stop_at_idLen n1),
        if_neg (by omega : ¬ idLen n1 = 0)]
      rw [if_neg (by
        rw [Bool.and_comm]
        exact hd)]
      exact congrArg some (decide_eq_true htake.symm)
  · rw [if_neg g2] at ht; simp at ht

lemma isMate_refl (n : List Byte) (h : 1 ≤ idLen n) :
    isMate n n = some true := by
  unfold isMate recordIdsMatch
  rw [if_neg (by omega : ¬ idLen n = 0),
    if_neg (by have := idLen_le n; omega : ¬ n.length < idLen n),
    if_pos (stop_at_idLen n),
    if_neg (by omega : ¬ idLen n = 0)]
  exact congrArg some (decide_eq_true rfl)

/-- Counterexample to claim C8 as stated: the record name `" x"` (a space
followed by `x`) is non-empty and ASCII, yet `is_mate` on two records with
this name does not return `True`: the ID (the part before the first
whitespace) is empty, so the trailing-digit test reads
`header1_chars[id1_length - 1]` = `header1_chars[-1]`, a byte outside the
string (modelled as `none`), and the outcome depends on unrelated memory
rather than being reflexively true. -/
theorem C8_counterexample :
    ([32, 120] : List Byte) ≠ [] ∧
    (∀ b ∈ ([32, 120] : List Byte), b < 128) ∧
    isMate [32, 120] [32, 120] = none := by
  refine ⟨by decide, by decide, ?_⟩
  rfl

/-- Claim C8, amended: `is_mate` is reflexive and symmetric for records
whose IDs (the name up to the first space, tab or NUL) are non-empty —
not merely for non-empty names.  Under that hypothesis no out-of-bounds
read occurs and the source's comparison is symmetric: a `True` answer
forces the two IDs to have the same length and the digit flags to agree
pairwise, so the memcmp prefix is the same in both directions. -/
theorem C8_is_mate_symm_refl (n1 n2 : List Byte)
    (h1 : 1 ≤ idLen n1) (h2 : 1 ≤ idLen n2) :
    isMate n1 n1 = some true ∧ isMate n1 n2 = isMate n2 n1 := by
  refine ⟨isMate_refl n1 h1, ?_⟩
  obtain ⟨b1, e1⟩ := isMate_isSome n1 n2 h1
  obtain ⟨b2, e2⟩ := isMate_isSome n2 n1 h2
  rw [e1, e2]
  cases b1 <;> cases b2
  · rfl
  · have := isMate_true_symm n2 n1 h2 e2
    rw [this] at e1
    exact absurd (Option.some.inj e1) (by decide)
  · have := isMate_true_symm n1 n2 h1 e1
    rw [this] at e2
    exact absurd (Option.some.inj e2) (by decide)
  · rfl

/-- Witness for the amended C8 at the spec's mate pair `read/1`,
`read/2`: both IDs are non-empty, `is_mate` is symmetric there and
reflexivity holds, with the concrete value `some true` in each direction
(`1` and `2` are both trimmed as pair digits). -/
theorem C8_is_mate_symm_refl_witness :
    1 ≤ idLen [114, 101, 97, 100, 47, 49] ∧
    1 ≤ idLen [114, 101, 97, 100, 47, 50] ∧
    isMate [114, 101, 97, 100, 47, 49] [114, 101, 97, 100, 47, 49] =
      some true ∧
    isMate [114, 101, 97, 100, 47, 49] [114, 101, 97, 100, 47, 50] =
      isMate [114, 101, 97, 100, 47, 50] [114, 101, 97, 100, 47, 49] ∧
    isMate [114, 101, 97, 100, 47, 49] [114, 101, 97, 100, 47, 50] =
      some true := by
  refine ⟨by decide, by decide, ?_, ?_, by rfl⟩
  · exact (C8_is_mate_symm_refl [114, 101, 97, 100, 47, 49]
      [114, 101, 97, 100, 47, 50] (by decide) (by decide)).1
  · exact (C8_is_mate_symm_refl [114, 101, 97, 100, 47, 49]
      [114, 101, 97, 100, 47, 50] (by decide) (by decide)).2

/- ### Claim C10: the index set of every byte read by the mate check.

`recordIdsMatchReads` lists, in program order, the indices (as integers,
so that the size_t underflow `id1_length - 1` at `id1_length = 0` shows
up as `-1`) that `record_ids_match` reads from each header.
`isMateReads` prepends the caller's reads: `strcspn` scans
`header1[0..id1_length]` (stopper or NUL included) and the trailing-digit
test reads `header1[id1_length - 1]`.  `records_are_mates` and
`record_names_match` perform exactly the same reads per pair.  When the
first ID is empty the digit test already reads index `-1`; every later
read depends on the garbage found there, so the model stops at that first
out-of-bounds access. -/

def recordIdsMatchReads (id1Length : Nat) (id1EndsWithNumber : Bool)
    (header2 : List Byte) (header2Length : Nat) : List Int × List Int :=
  if header2Length < id1Length then ([], [])
  else if stopB (charNul header2 id1Length) then
    ((List.range (if id1EndsWithNumber && digitFlag header2 (id1Length - 1)
        then id1Length - 1 else id1Length)).map Int.ofNat,
     (id1Length : Int) :: ((id1Length : Int) - 1) ::
       (List.range (if id1EndsWithNumber && digitFlag header2 (id1Length - 1)
          then id1Length - 1 else id1Length)).map Int.ofNat)
  else ([], [(id1Length : Int)])

def isMateReads (name1 name2 : List Byte) : List Int × List Int :=
  if idLen name1 = 0 then
    ((List.range (idLen name1 + 1)).map Int.ofNat ++ [(idLen name1 : Int) - 1],
     [])
  else
    ((List.range (idLen name1 + 1)).map Int.ofNat ++
       [(idLen name1 : Int) - 1] ++
       (recordIdsMatchReads (idLen name1) (digitFlag name1 (idLen name1 - 1))
          name2 name2.length).1,
     (recordIdsMatchReads (idLen name1) (digitFlag name1 (idLen name1 - 1))
        name2 name2.length).2)

/-- Counterexample to claim C10 as stated: for the empty name — which the
claim explicitly covers — the mate check reads index `-1` of the first
header (the trailing-digit test `header1_chars[id1_length - 1]` with
`id1_length = 0`), which is outside the string and its terminating NUL
(valid indices are exactly `[0, 0]`). -/
theorem C10_counterexample :
    (-1 : Int) ∈ (isMateReads [] []).1 ∧
    ¬ (∀ i ∈ (isMateReads [] []).1,
        0 ≤ i ∧ i ≤ (([] : List Byte).length : Int)) := by
  constructor
  · decide
  · intro hall
    have := hall (-1) (by decide)
    exact absurd this.1 (by decide)

/-- Claim C10, amended: whenever the first record's ID is non-empty,
every byte read by the mate check is in bounds: each index read from
header 1 lies in `[0, len1]` and each index read from header 2 lies in
`[0, len2]`, the upper end being the terminating NUL.  (With an empty
first ID the check instead reads header 1 at index `-1`, as the
counterexample shows.) -/
theorem C10_reads_in_bounds (n1 n2 : List Byte) (h1 : 1 ≤ idLen n1) :
    (∀ i ∈ (isMateReads n1 n2).1, 0 ≤ i ∧ i ≤ (n1.length : Int)) ∧
    (∀ i ∈ (isMateReads n1 n2).2, 0 ≤ i ∧ i ≤ (n2.length : Int)) := by
  have hle1 : idLen n1 ≤ n1.length := idLen_le n1
  unfold isMateReads
  rw [if_neg (by omega : ¬ idLen n1 = 0)]
  unfold recordIdsMatchReads
  by_cases g1 : n2.length < idLen n1
  · rw [if_pos g1]
    constructor
    · intro i hi
      simp only [List.append_nil, List.mem_append, List.mem_map,
        List.mem_range, List.mem_singleton] at hi
      rcases hi with ⟨j, hj, rfl⟩ | rfl
      · simp only [Int.ofNat_eq_coe]
        omega
      · omega
    · intro i hi
      simp at hi
  · rw [if_neg g1]
    by_cases g2 : stopB (charNul n2 (idLen n1)) = true
    · rw [if_pos g2]
      have hn : (if digitFlag n1 (idLen n1 - 1) &&
          digitFlag n2 (idLen n1 - 1)
          then idLen n1 - 1 else idLen n1) ≤ idLen n1 := by
        split <;> omega
      constructor
      · intro i hi
        simp only [List.mem_append, List.mem_map, List.mem_range,
          List.mem_singleton] at hi
        rcases hi with (⟨j, hj, rfl⟩ | rfl) | ⟨j, hj, rfl⟩
        · simp only [Int.ofNat_eq_coe]
          omega
        · omega
        · simp only [Int.ofNat_eq_coe]
          omega
      · intro i hi
        simp only [List.mem_cons, List.mem_map, List.mem_range] at hi
        rcases hi with rfl | rfl | ⟨j, hj, rfl⟩
        · omega
        · omega
        · simp only [Int.ofNat_eq_coe]
          omega
    · rw [if_neg g2]
      constructor
      · intro i hi
        simp only [List.mem_append, List.mem_map, List.mem_range,
          List.mem_singleton] at hi
        rcases hi with (⟨j, hj, rfl⟩ | rfl) | hfalse
        · simp only [Int.ofNat_eq_coe]
          omega
        · omega
        · simp at hfalse
      · intro i hi
        simp only [List.mem_singleton] at hi
        subst hi
        omega

/-- Witness for the amended C10 at the single-character names `a`, `b`:
every read of the mate check is within `[0, 1]` on both sides. -/
theorem C10_reads_in_bounds_witness :
    1 ≤ idLen [97] ∧
    ((∀ i ∈ (isMateReads [97] [98]).1, 0 ≤ i ∧ i ≤ (([97] : List Byte).length : Int)) ∧
     (∀ i ∈ (isMateReads [97] [98]).2, 0 ≤ i ∧ i ≤ (([98] : List Byte).length : Int))) :=
  ⟨by decide, C10_reads_in_bounds [97] [98] (by decide)⟩

/- ### Claim C5: BAM tag handling when slicing (`slice_tags`,
`get_tag_length`, `trim_move_table_tag`; src/unnamed/part_007).

Tag blocks are byte lists; multi-byte integers are little-endian.
`int8` reinterprets a byte as a signed char. -/

def int8 (b : Byte) : Int := if b < 128 then (b : Int) else (b : Int) - 256

/-- Little-endian read of `n` bytes at offset `off`. -/
def readLE (l : List Byte) (off n : Nat) : Nat :=
  wordOfBytes ((l.drop off).take n)

/-- `memchr` over a byte list: index of the first occurrence. -/
def memchrIdx : List Byte → Byte → Option Nat
  | [], _ => none
  | b :: t, c => if b = c then some 0 else (memchrIdx t c).map (· + 1)

/-- `get_array_item_size` (part_007).  Dead code in practice: the only
caller sits in the unreachable `B` branch of `get_tag_length`. -/
def getArrayItemSize (arrayType : Byte) : Int :=
  if arrayType = 99 ∨ arrayType = 67 then 1
  else if arrayType = 115 ∨ arrayType = 83 then 2
  else if arrayType = 105 ∨ arrayType = 73 ∨ arrayType = 102 then 4
  else -1

/-- `get_tag_length` (part_007 lines 138-165), translated with its bug
kept: the condition `tag_type == b"H" or b"Z"` is a Python truthiness
test whose right operand `b"Z"` is a non-empty literal and hence always
true, so every type outside `c C A s S i I F` — including `B` (arrays,
thus the `mv` move table), `Z`, `H` and the lowercase float type `f` —
takes that branch; the branch never assigns `tag_length`, so after the
`memchr` for a NUL it returns `-1` whether the NUL was found (falls
through with `tag_length` still `-1`, and `-1 > max_length` is false) or
not (explicit `return -1`).  The `B` branch and the final `else` are
unreachable. -/
def getTagLength (tag : List Byte) (maxLength : Int) : Int :=
  let tagType := tag.getD 2 0
  if tagType = 99 ∨ tagType = 67 ∨ tagType = 65 then
    if (4 : Int) > maxLength then -1 else 4
  else if tagType = 115 ∨ tagType = 83 then
    if (5 : Int) > maxLength then -1 else 5
  else if tagType = 105 ∨ tagType = 73 ∨ tagType = 70 then
    if (7 : Int) > maxLength then -1 else 7
  else
    match memchrIdx ((tag.drop 3).take maxLength.toNat) 0 with
    | none => -1
    | some _ => -1

/-- `get_tag_int_value` (part_007).  `none` models the
`PY_SSIZE_T_MAX` error sentinel (unambiguous: genuine values fit in 32
bits). -/
def getTagIntValue (tag : List Byte) : Option Int :=
  let tagType := tag.getD 2 0
  if tagType = 99 then some (int8 (readLE tag 3 1))
  else if tagType = 67 then some ((readLE tag 3 1 : Int))
  else if tagType = 115 then
    some (if readLE tag 3 2 < 2 ^ 15 then (readLE tag 3 2 : Int)
          else (readLE tag 3 2 : Int) - 2 ^ 16)
  else if tagType = 83 then some ((readLE tag 3 2 : Int))
  else if tagType = 105 then
    some (if readLE tag 3 4 < 2 ^ 31 then (readLE tag 3 4 : Int)
          else (readLE tag 3 4 : Int) - 2 ^ 32)
  else if tagType = 73 then some ((readLE tag 3 4 : Int))
  else none

/-- Little-endian bytes of an integer value, `n` bytes wide. -/
def intLE (v : Int) (n : Nat) : List Byte :=
  (List.range n).map (fun i => ((v % (2 : Int) ^ (8 * n)).toNat / 256 ^ i) % 256)

/-- `store_tag_int_value` (part_007): two-letter tag name, smallest
integer representation.  `none` models the `-1` error return (nothing
written). -/
def storeTagIntValue (name : List Byte) (value : Int) : Option (List Byte) :=
  if value < -(2 ^ 31) ∨ (2 ^ 32 - 1 : Int) < value then none
  else if -(2 ^ 7) ≤ value ∧ value ≤ (2 ^ 7 - 1 : Int) then
    some (name.take 2 ++ [99] ++ intLE value 1)
  else if (2 ^ 7 - 1 : Int) < value ∧ value ≤ (2 ^ 8 - 1 : Int) then
    some (name.take 2 ++ [67] ++ intLE value 1)
  else if -(2 ^ 15) ≤ value ∧ value ≤ (2 ^ 15 - 1 : Int) then
    some (name.take 2 ++ [115] ++ intLE value 2)
  else if (2 ^ 15 - 1 : Int) < value ∧ value ≤ (2 ^ 16 - 1 : Int) then
    some (name.take 2 ++ [83] ++ intLE value 2)
  else if -(2 ^ 31) ≤ value ∧ value ≤ (2 ^ 31 - 1 : Int) then
    some (name.take 2 ++ [105] ++ intLE value 4)
  else if (2 ^ 31 - 1 : Int) < value ∧ value ≤ (2 ^ 32 - 1 : Int) then
    some (name.take 2 ++ [73] ++ intLE value 4)
  else none

/-- First scan of `trim_move_table_tag`: advance until the sequence
position passes `start`; returns the remaining table (from
`new_mv_table_start`), the sequence position and the number of trimmed
leading table positions. -/
def trimScan1 : List Int → Int → Int → Nat → List Int × Int × Nat
  | [], seq, _, trimmed => ([], seq, trimmed)
  | m :: rest, seq, start, trimmed =>
    let seq2 := if m = 1 then seq + 1 else seq
    if seq2 > start then (m :: rest, seq2 - 1, trimmed)
    else trimScan1 rest seq2 start (trimmed + 1)

/-- Second scan: number of table entries kept while the sequence
position stays below `stop`. -/
def trimScan2 : List Int → Int → Int → Nat
  | [], _, _ => 0
  | m :: rest, seq, stop =>
    if seq < stop then 1 + trimScan2 rest (if m = 1 then seq + 1 else seq) stop
    else 0

inductive TrimResult where
  | written (bytes : List Byte)
  | err
  | nullDeref
  deriving Repr, DecidableEq

/-- `trim_move_table_tag` (part_007 lines 197-269).  `mv = none` models
the bare `mv` pointer being NULL: the function opens with
`memcmp(mv_tag, b"mvBc", 4)`, a NULL dereference.  A tag not starting
with `mvBc` gives the `-1` error return (`err`); otherwise the move
table is trimmed and `mv`/`ns`/`ts` are re-emitted.  (That last branch
is unreachable from `slice_tags`, which rejects every type-`B` tag
before remembering it.) -/
def trimMoveTableTag (mv : Option (List Byte)) (ts ns start stop : Int) :
    TrimResult :=
  match mv with
  | none => TrimResult.nullDeref
  | some tag =>
    if tag.take 4 ≠ [109, 118, 66, 99] then TrimResult.err
    else
      let rawLength := readLE tag 4 4
      let mvLength := rawLength - 1
      let stride := tag.getD 8 0
      let table := ((tag.drop 9).take mvLength).map int8
      let s1 := trimScan1 table 0 start 0
      let newSize := trimScan2 s1.1 s1.2.1 stop
      let newTable := s1.1.take newSize
      let tsns : Int × Int :=
        if newSize = 0 then (-1, -1)
        else
          let ts2 := if 0 ≤ ts then ts + (s1.2.2 : Int) * (stride : Int) else ts
          (ts2, if 0 ≤ ns then (newSize : Int) * (stride : Int) + max ts2 0 else ns)
      TrimResult.written
        ([109, 118, 66, 99] ++ intLE ((newSize : Int) + 1) 4 ++ [stride] ++
          newTable.map (fun m => (m % 256).toNat) ++
          (match storeTagIntValue [110, 115] tsns.2 with
           | some b => b
           | none => []) ++
          (match storeTagIntValue [116, 115] tsns.1 with
           | some b => b
           | none => []))

inductive SliceTagsResult where
  | ok (out : List Byte)
  | invalidTag (residual : List Byte)
  | nullDeref
  deriving Repr, DecidableEq

/-- The tag-copy loop of `slice_tags`: walks the tag block; a tag whose
`get_tag_length` is `-1` raises `ValueError` (modelled as `.error` with
the residual, the bytes the error message displays); `ns`/`ts` are read
and withheld, `mv`/`ML`/`MM` are remembered and withheld, `MN`/`du` are
skipped, everything else is copied.  Fuel exceeds any reachable depth
(each accepted tag consumes at least 4 bytes). -/
def sliceTagsLoopF : Nat → List Byte → List Byte → Int → Int →
    Option (List Byte) → Option (List Byte) → Option (List Byte) →
    Except (List Byte)
      (List Byte × Int × Int × Option (List Byte) × Option (List Byte) ×
        Option (List Byte))
  | 0, tag, _, _, _, _, _, _ => Except.error tag
  | fuel + 1, tag, dest, ns, ts, mv, MM, ML =>
    if tag = [] then Except.ok (dest, ns, ts, mv, MM, ML)
    else
      let tagLength := getTagLength tag (tag.length : Int)
      if tagLength = -1 then Except.error tag
      else
        let n := tagLength.toNat
        if tag.take 2 = [110, 115] then
          sliceTagsLoopF fuel (tag.drop n) dest
            (match getTagIntValue tag with
             | none => -1
             | some v => v) ts mv MM ML
        else if tag.take 2 = [116, 115] then
          sliceTagsLoopF fuel (tag.drop n) dest ns
            (match getTagIntValue tag with
             | none => -1
             | some v => v) mv MM ML
        else if tag.take 2 = [109, 118] then
          sliceTagsLoopF fuel (tag.drop n) dest ns ts (some tag) MM ML
        else if tag.take 2 = [77, 76] then
          sliceTagsLoopF fuel (tag.drop n) dest ns ts mv MM (some tag)
        else if tag.take 2 = [77, 77] then
          sliceTagsLoopF fuel (tag.drop n) dest ns ts mv (some tag) ML
        else if tag.take 2 = [77, 78] then
          sliceTagsLoopF fuel (tag.drop n) dest ns ts mv MM ML
        else if tag.take 2 = [100, 117] then
          sliceTagsLoopF fuel (tag.drop n) dest ns ts mv MM ML
        else
          sliceTagsLoopF fuel (tag.drop n) (dest ++ tag.take n) ns ts mv MM ML

/-- `slice_tags` (part_007 lines 281-363) after `unpack_index_key` has
normalised the key to `start`/`stop`/`step`.  `trim_mm_ml_tag` always
returns 0 and writes nothing.  When `step = 1` the move-table trim runs
on the remembered `mv` pointer — NULL when no `mv` tag survived the
loop — before its `-1` result is tested. -/
def sliceTags (tags : List Byte) (originalSize start stop step : Int) :
    SliceTagsResult :=
  if start = 0 ∧ stop = originalSize then SliceTagsResult.ok tags
  else
    match sliceTagsLoopF (tags.length + 1) tags [] (-1) (-1) none none none with
    | Except.error residual => SliceTagsResult.invalidTag residual
    | Except.ok (dest, ns, ts, mv, _, _) =>
      if step = 1 then
        match trimMoveTableTag mv ts ns start stop with
        | TrimResult.nullDeref => SliceTagsResult.nullDeref
        | TrimResult.err => SliceTagsResult.ok dest
        | TrimResult.written b => SliceTagsResult.ok (dest ++ b)
      else SliceTagsResult.ok dest

/-- Claim C5 is a code bug; this theorem exhibits the actual behaviour.
(1) Every tag of type `B` — the type of the `mv` move table
(`mvBc...`) — is rejected by `get_tag_length` with `-1`, because the
chain `tag_type == b"H" or b"Z"` is always truthy (`b"Z"` is a non-empty
bytes literal) and that branch never assigns `tag_length`.  Hence (2)
slicing a record whose tag block carries a move table raises
`ValueError: Invalid tag` instead of re-emitting a trimmed `mv`: shown
on the block `mvBc`, count 2, stride 5, table `[1]`, sliced `[0:1]` with
step 1 on a length-2 sequence.  (3) On a tag block without `mv` (here a
single `ns` tag) and step 1, `trim_move_table_tag` is invoked with
`mv == NULL` and dereferences it via `memcmp`.  The claimed trimming
behaviour is unreachable. -/
theorem C5_slice_tags_bug :
    (∀ (tag : List Byte) (m : Int), tag.getD 2 0 = 66 →
      getTagLength tag m = -1) ∧
    sliceTags [109, 118, 66, 99, 2, 0, 0, 0, 5, 1] 2 0 1 1 =
      SliceTagsResult.invalidTag [109, 118, 66, 99, 2, 0, 0, 0, 5, 1] ∧
    sliceTags [110, 115, 67, 7] 2 0 1 1 = SliceTagsResult.nullDeref := by
  refine ⟨?_, by decide, by decide⟩
  intro tag m h
  simp only [getTagLength, h]
  norm_num
  cases memchrIdx ((tag.drop 3).take m.toNat) 0 <;> rfl

/-- Witness for C5: the hypothesis of the universally quantified part is
satisfiable — the concrete move-table tag block has type byte `B` and is
rejected with `-1`. -/
theorem C5_slice_tags_bug_witness :
    ([109, 118, 66, 99, 2, 0, 0, 0, 5, 1] : List Byte).getD 2 0 = 66 ∧
    getTagLength [109, 118, 66, 99, 2, 0, 0, 0, 5, 1] 10 = -1 :=
  ⟨by decide, C5_slice_tags_bug.1 [109, 118, 66, 99, 2, 0, 0, 0, 5, 1] 10
    (by decide)⟩
